import Mathlib

/-!
# Verification of the ADF bridge, mention tracker, fuzzy matcher and inline renderer

Shallow embedding of the core of `mindful-jira` (files `src/jira.rs`,
`src/app.rs`, `src/main.rs`, `src/ui.rs`).  Rust `String`s are modelled as
`List Char` (all offsets in the source are character offsets obtained via
`.chars()`), `serde_json::Value` as the inductive `Json`, and fallible /
panicking operations as `Option`-valued functions (a `none` marks a input on
which the Rust code would panic).
-/

namespace MindfulJira

/-- Character slice `chars[a..b]` of a Rust `Vec<char>`: returns `none`
exactly when Rust would panic (`a > b` or `b > chars.len()`). -/
def sliceOpt (chars : List Char) (a b : Nat) : Option (List Char) :=
  if a ≤ b ∧ b ≤ chars.length then some ((chars.drop a).take (b - a)) else none

/-- Total character slice `chars[a..b]` used where the Rust code has already
checked the bounds (e.g. after `end > chars.len()` tests). -/
def sliceChars (chars : List Char) (a b : Nat) : List Char :=
  (chars.drop a).take (b - a)

/-- Models Rust `str::split('\n')` on the character list: the list of lines,
never empty, `[[]]` on the empty string. -/
def splitLines : List Char → List (List Char)
  | [] => [[]]
  | c :: cs =>
    if c = '\n' then [] :: splitLines cs
    else
      match splitLines cs with
      | [] => [[c]]
      | l :: ls => (c :: l) :: ls

theorem splitLines_ne_nil (t : List Char) : splitLines t ≠ [] := by
  induction t with
  | nil => simp [splitLines]
  | cons c cs ih =>
    simp only [splitLines]
    split
    · simp
    · cases h : splitLines cs <;> simp

/-- Joining the split lines with `'\n'` and a final `'\n'` recovers the text
followed by a newline (each paragraph/line contributes its text plus one
line terminator). -/
theorem splitLines_join (t : List Char) :
    ((splitLines t).map (· ++ ['\n'])).flatten = t ++ ['\n'] := by
  induction t with
  | nil => simp [splitLines]
  | cons c cs ih =>
    simp only [splitLines]
    split
    · rename_i hc
      subst hc
      simpa using ih
    · cases h : splitLines cs with
      | nil => exact absurd h (splitLines_ne_nil cs)
      | cons l ls =>
        rw [h] at ih
        simpa using ih

/-- The number of lines is the number of `'\n'` characters plus one. -/
theorem splitLines_length (t : List Char) :
    (splitLines t).length = t.count '\n' + 1 := by
  induction t with
  | nil => simp [splitLines]
  | cons c cs ih =>
    simp only [splitLines]
    split
    · rename_i hc
      subst hc
      simp [List.count_cons, ih]
    · rename_i hc
      cases h : splitLines cs with
      | nil => exact absurd h (splitLines_ne_nil cs)
      | cons l ls =>
        rw [h] at ih
        simp only [List.length_cons] at ih ⊢
        rw [List.count_cons]
        simp [hc, ih]

/-- Total length of the original text reconstructed from its lines:
line lengths plus one separator between consecutive lines. -/
def sumLen (ls : List (List Char)) : Nat :=
  (ls.map List.length).sum + (ls.length - 1)

theorem sumLen_cons (l : List Char) (rest : List (List Char)) (h : rest ≠ []) :
    sumLen (l :: rest) = l.length + 1 + sumLen rest := by
  cases rest with
  | nil => exact absurd rfl h
  | cons l' ls => simp [sumLen]; omega

theorem sumLen_splitLines (t : List Char) : sumLen (splitLines t) = t.length := by
  induction t with
  | nil => simp [splitLines, sumLen]
  | cons c cs ih =>
    simp only [splitLines]
    split
    · rw [sumLen_cons _ _ (splitLines_ne_nil cs), ih]
      simp
      omega
    · cases h : splitLines cs with
      | nil => exact absurd h (splitLines_ne_nil cs)
      | cons l ls =>
        rw [h] at ih
        cases ls with
        | nil => simp [sumLen] at ih ⊢; omega
        | cons l' ls' =>
          rw [sumLen_cons _ _ (by simp)] at ih ⊢
          simp only [List.length_cons]
          omega

/-- First index at which `pat` occurs as a contiguous pattern in `l`;
models Rust `str::find(pattern)` (byte indices in Rust are character-boundary
indices at every match, so character indices coincide). -/
def findSub (pat : List Char) : List Char → Option Nat
  | [] => if pat.isEmpty then some 0 else none
  | c :: rest =>
    if pat.isPrefixOf (c :: rest) then some 0
    else (findSub pat rest).map (· + 1)

theorem findSub_starts {pat l : List Char} {i : Nat} (h : findSub pat l = some i) :
    pat <+: l.drop i := by
  induction l generalizing i with
  | nil =>
    simp only [findSub] at h
    split at h
    · rename_i he
      cases h
      simpa [List.isEmpty_iff] using he
    · cases h
  | cons c rest ih =>
    simp only [findSub] at h
    split at h
    · rename_i hp
      cases h
      simpa [← List.isPrefixOf_iff_prefix] using hp
    · rcases Option.map_eq_some'.mp h with ⟨j, hj, rfl⟩
      simpa using ih hj

/-- Index of the first element satisfying `p` (the iterator `position` /
`find` idiom). -/
def findIdxP (p : Char → Bool) : List Char → Option Nat
  | [] => none
  | c :: rest => if p c then some 0 else (findIdxP p rest).map (· + 1)

theorem findIdxP_some {p : Char → Bool} :
    ∀ {l : List Char} {k : Nat}, findIdxP p l = some k →
      ∃ a, l[k]? = some a ∧ p a = true ∧
        ∀ (t : Nat), t < k → ∀ (b : Char), l[t]? = some b → p b = false := by
  intro l
  induction l with
  | nil => intro k h; cases h
  | cons c rest ih =>
    intro k h
    simp only [findIdxP] at h
    by_cases hc : p c
    · rw [if_pos hc] at h
      cases h
      exact ⟨c, by simp, hc, fun t ht => by omega⟩
    · rw [if_neg hc] at h
      rcases Option.map_eq_some'.mp h with ⟨j, hj, rfl⟩
      obtain ⟨a, ha, hpa, hmin⟩ := ih hj
      refine ⟨a, by simpa using ha, hpa, ?_⟩
      intro t ht b hb
      cases t with
      | zero =>
        rw [List.getElem?_cons_zero] at hb
        cases hb
        exact Bool.eq_false_iff.mpr hc
      | succ t2 =>
        exact hmin t2 (by omega) b (by simpa using hb)

theorem findIdxP_none {p : Char → Bool} :
    ∀ {l : List Char}, findIdxP p l = none →
      ∀ (t : Nat) (b : Char), l[t]? = some b → p b = false := by
  intro l
  induction l with
  | nil => intro _ t b hb; simp at hb
  | cons c rest ih =>
    intro h t b hb
    simp only [findIdxP] at h
    by_cases hc : p c
    · rw [if_pos hc] at h; cases h
    · rw [if_neg hc] at h
      cases t with
      | zero =>
        rw [List.getElem?_cons_zero] at hb
        cases hb
        exact Bool.eq_false_iff.mpr hc
      | succ t2 =>
        exact ih (Option.map_eq_none'.mp h) t2 b (by simpa using hb)

theorem findIdxP_isSome {p : Char → Bool} :
    ∀ {l : List Char} {t : Nat} {b : Char}, l[t]? = some b → p b = true →
      (findIdxP p l).isSome := by
  intro l
  induction l with
  | nil => intro t b hb; simp at hb
  | cons c rest ih =>
    intro t b hb hp
    simp only [findIdxP]
    by_cases hc : p c
    · rw [if_pos hc]; rfl
    · rw [if_neg hc]
      cases t with
      | zero =>
        rw [List.getElem?_cons_zero] at hb
        cases hb
        exact absurd hp (by simpa using hc)
      | succ t2 =>
        have h2 := ih (t := t2) (by simpa using hb) hp
        cases hf : findIdxP p rest with
        | none => rw [hf] at h2; cases h2
        | some j => simp [hf]

/-- Index of the first whitespace character, or the length if none; models
`str::find(|c: char| c.is_whitespace()).unwrap_or(len)`. -/
def firstWsIdx (l : List Char) : Nat :=
  match findIdxP (fun c => c.isWhitespace) l with
  | some i => i
  | none => l.length

theorem firstWsIdx_pos {c : Char} {rest : List Char} (h : ¬ c.isWhitespace) :
    1 ≤ firstWsIdx (c :: rest) := by
  simp only [firstWsIdx, findIdxP, h, Bool.false_eq_true, if_neg]
  cases hf : findIdxP (fun c => c.isWhitespace) rest <;> simp [hf]

-- ### The JSON value model (`serde_json::Value`)

/-- Model of `serde_json::Value` restricted to the shapes the ADF code
uses.  Object fields keep insertion order; key lookup takes the first match
(keys are unique in every object this code constructs or reads). -/
inductive Json where
  | null
  | jbool (b : Bool)
  | jnum (n : Nat)
  | jstr (s : List Char)
  | jarr (elems : List Json)
  | jobj (fields : List (String × Json))

/-- First-match field lookup in an object field list. -/
def getField : List (String × Json) → String → Option Json
  | [], _ => none
  | (k, v) :: rest, key => if k = key then some v else getField rest key

/-- `value.get(key)`: field lookup, `none` off objects. -/
def Json.get (j : Json) (key : String) : Option Json :=
  match j with
  | .jobj fields => getField fields key
  | _ => none

/-- `value.as_str()`. -/
def Json.asStr : Json → Option (List Char)
  | .jstr s => some s
  | _ => none

/-- `value.as_array()`. -/
def Json.asArr : Json → Option (List Json)
  | .jarr xs => some xs
  | _ => none

/-- `value.as_u64()` (numbers are modelled as `Nat`). -/
def Json.asNat : Json → Option Nat
  | .jnum n => some n
  | _ => none

/-- `value.get("type").and_then(|t| t.as_str())`: the node-type dispatch key. -/
def nodeType (j : Json) : Option (List Char) := (j.get "type").bind Json.asStr

/-- The literal `json!({ "type": "text", "text": s })`. -/
def Json.mkText (s : List Char) : Json :=
  .jobj [("type", .jstr "text".data), ("text", .jstr s)]

/-- The literal `json!({ "type": "inlineCard", "attrs": { "url": url } })`. -/
def Json.mkInlineCard (url : List Char) : Json :=
  .jobj [("type", .jstr "inlineCard".data), ("attrs", .jobj [("url", .jstr url)])]

/-- The literal `json!({ "type": "mention", "attrs": { "id": …, "text": …,
"accessLevel": "" } })`. -/
def Json.mkMention (id text : List Char) : Json :=
  .jobj [("type", .jstr "mention".data),
         ("attrs", .jobj [("id", .jstr id), ("text", .jstr text),
                          ("accessLevel", .jstr [])])]

/-- The literal `json!({ "type": "paragraph", "content": content })`. -/
def Json.mkParagraph (content : List Json) : Json :=
  .jobj [("type", .jstr "paragraph".data), ("content", .jarr content)]

/-- The literal `json!({ "type": "doc", "version": 1, "content": content })`. -/
def Json.mkDoc (content : List Json) : Json :=
  .jobj [("type", .jstr "doc".data), ("version", .jnum 1),
         ("content", .jarr content)]

/-- A node is a mention node when its `type` field is the string
`"mention"` (the shape `text_to_adf` emits for resolved mentions). -/
def isMentionNode (j : Json) : Bool :=
  match j.get "type" with
  | some (.jstr s) => s == "mention".data
  | _ => false

-- ### `jira.rs`: `text_to_adf_nodes` (URL auto-linking inside a text segment)

theorem url_find_head {rem : List Char} {start : Nat}
    (h : ((findSub "https://".data rem).or (findSub "http://".data rem)) = some start) :
    ∃ rest2, rem.drop start = 'h' :: rest2 := by
  have hpre : "https://".data <+: rem.drop start ∨ "http://".data <+: rem.drop start := by
    cases h1 : findSub "https://".data rem with
    | some s =>
      rw [h1] at h
      simp only [Option.or_some] at h
      cases h
      exact Or.inl (findSub_starts h1)
    | none =>
      rw [h1] at h
      simp only [Option.or] at h
      exact Or.inr (findSub_starts h)
  rcases hpre with ⟨t, ht⟩ | ⟨t, ht⟩
  · exact ⟨_, by rw [← ht]; rfl⟩
  · exact ⟨_, by rw [← ht]; rfl⟩

/-- `text_to_adf_nodes` (jira.rs): split a plain text segment into `text`
nodes and `inlineCard` nodes wherever a bare `https://` / `http://` URL is
found (the `https://` search takes priority via `or_else`); a URL runs to the
first whitespace character. -/
def text_to_adf_nodes (remaining : List Char) : List Json :=
  if hrem : remaining.isEmpty then []
  else
    match hfind : ((findSub "https://".data remaining).or
        (findSub "http://".data remaining)) with
    | some start =>
      let url_part := remaining.drop start
      let url_end := firstWsIdx url_part
      (if 0 < start then [Json.mkText (remaining.take start)] else []) ++
        Json.mkInlineCard (url_part.take url_end) ::
          text_to_adf_nodes (url_part.drop url_end)
    | none => [Json.mkText remaining]
termination_by remaining.length
decreasing_by
  have hlen : remaining.length ≠ 0 := by
    simpa [List.isEmpty_iff, ← List.length_eq_zero] using hrem
  obtain ⟨rest2, hdrop⟩ := url_find_head hfind
  have hws : 1 ≤ firstWsIdx (remaining.drop start) := by
    rw [hdrop]
    exact firstWsIdx_pos (by decide)
  have h1 : 1 ≤ remaining.length - start := by
    have := congrArg List.length hdrop
    simp only [List.length_drop, List.length_cons] at this
    omega
  simp only [List.length_drop]
  omega

-- ### `jira.rs`: `text_to_adf` (encoder)

/-- `MentionInsert` (jira.rs): a resolved mention span handed to the
encoder. `start`/`len` are character offsets/lengths in the buffer. -/
structure MentionInsert where
  start : Nat
  len : Nat
  account_id : List Char
  display_name : List Char
deriving DecidableEq, Repr

/-- Stable insertion of a span into a start-sorted list (equal keys keep
their original relative order, as with Rust's stable `sort_by_key`). -/
def insertByStart (m : MentionInsert) : List MentionInsert → List MentionInsert
  | [] => [m]
  | x :: xs => if m.start ≤ x.start then m :: x :: xs else x :: insertByStart m xs

/-- `sorted_mentions.sort_by_key(|m| m.start)`: stable sort by `start`. -/
def sort_by_start : List MentionInsert → List MentionInsert
  | [] => []
  | x :: xs => insertByStart x (sort_by_start xs)

theorem insertByStart_perm (m : MentionInsert) (l : List MentionInsert) :
    List.Perm (insertByStart m l) (m :: l) := by
  induction l with
  | nil => exact List.Perm.refl _
  | cons x xs ih =>
    simp only [insertByStart]
    split
    · exact List.Perm.refl _
    · exact (ih.cons x).trans (List.Perm.swap m x xs)

theorem sort_by_start_perm (l : List MentionInsert) :
    List.Perm (sort_by_start l) l := by
  induction l with
  | nil => exact List.Perm.refl _
  | cons x xs ih =>
    exact (insertByStart_perm x (sort_by_start xs)).trans (ih.cons x)

/-- The `if !segment.is_empty() { nodes.extend(text_to_adf_nodes(&segment)) }`
pattern used for the plain segments between mentions. -/
def segNodes (seg : List Char) : List Json :=
  if seg.isEmpty then [] else text_to_adf_nodes seg

/-- The mention-interleaving walk of one line (jira.rs `text_to_adf`, the
`for mention in &line_mentions` loop followed by the trailing segment).
`none` marks an input on which the Rust slice `chars[pos..x]` would panic. -/
def mention_line_nodes (chars : List Char) (lineEnd : Nat) :
    List MentionInsert → Nat → Option (List Json)
  | [], pos =>
    if pos < lineEnd then do
      let seg ← sliceOpt chars pos lineEnd
      pure (segNodes seg)
    else pure []
  | m :: ms, pos => do
    let pre ←
      if pos < m.start then do
        let seg ← sliceOpt chars pos m.start
        pure (segNodes seg)
      else pure []
    let rest ← mention_line_nodes chars lineEnd ms (m.start + m.len)
    pure (pre ++ Json.mkMention m.account_id ('@' :: m.display_name) :: rest)

/-- The per-line `scan` of `text_to_adf`: walks the lines with their running
character offset and builds one `paragraph` node per line. -/
def paragraphs_from (chars : List Char) (sorted : List MentionInsert) :
    List (List Char) → Nat → Option (List Json)
  | [], _ => some []
  | line :: rest, lineStart =>
    let lineEnd := lineStart + line.length
    let lineMentions := sorted.filter (fun m => lineStart ≤ m.start && m.start < lineEnd)
    do
      let content ←
        if lineMentions.isEmpty then pure (text_to_adf_nodes line)
        else do
          let nodes ← mention_line_nodes chars lineEnd lineMentions lineStart
          pure (if nodes.isEmpty then [Json.mkText []] else nodes)
      let others ← paragraphs_from chars sorted rest (lineEnd + 1)
      pure (Json.mkParagraph content :: others)

/-- `text_to_adf` (jira.rs): encode an edited plain-text buffer plus its
resolved mention spans into an ADF `doc` of `paragraph`s.  Returns `none`
exactly when the Rust code would panic on a `chars[..]` slice (proved
impossible below). -/
def text_to_adf (text : List Char) (mentions : List MentionInsert) : Option Json := do
  let sorted := sort_by_start mentions
  let paras ← paragraphs_from text sorted (splitLines text) 0
  pure (Json.mkDoc paras)

-- ### `jira.rs`: `adf_to_text` (decoder)

/-- `value.get("content").and_then(|c| c.as_array())`. -/
def Json.contentArr (j : Json) : Option (List Json) :=
  (j.get "content").bind Json.asArr

theorem getField_sizeOf {fields : List (String × Json)} {key : String} {v : Json}
    (h : getField fields key = some v) : sizeOf v < 1 + sizeOf fields := by
  induction fields with
  | nil => simp [getField] at h
  | cons p rest ih =>
    obtain ⟨k, x⟩ := p
    simp only [getField] at h
    split at h
    · cases h
      simp only [List.cons.sizeOf_spec, Prod.mk.sizeOf_spec]
      omega
    · have := ih h
      simp only [List.cons.sizeOf_spec, Prod.mk.sizeOf_spec]
      omega

theorem get_sizeOf {j : Json} {key : String} {v : Json} (h : j.get key = some v) :
    sizeOf v < sizeOf j := by
  cases j <;> simp only [Json.get] at h <;> try cases h
  rename_i fields
  have := getField_sizeOf h
  simp only [Json.jobj.sizeOf_spec]
  omega

theorem asArr_sizeOf {j : Json} {xs : List Json} (h : Json.asArr j = some xs)
    {x : Json} (hx : x ∈ xs) : sizeOf x < sizeOf j := by
  cases j <;> simp only [Json.asArr] at h <;> try cases h
  have := List.sizeOf_lt_of_mem hx
  simp only [Json.jarr.sizeOf_spec]
  omega

theorem contentArr_sizeOf {j : Json} {arr : List Json} (h : Json.contentArr j = some arr)
    {x : Json} (hx : x ∈ arr) : sizeOf x < sizeOf j := by
  simp only [Json.contentArr, Option.bind_eq_some] at h
  obtain ⟨c, hc, harr⟩ := h
  exact (asArr_sizeOf harr hx).trans (get_sizeOf hc)

/-- Rust `str::lines()` on decoder output: split on `'\n'`, without a final
empty line when the text ends in `'\n'` (no `'\r'` handling: the decoder
never emits carriage returns). -/
def rustLines (t : List Char) : List (List Char) :=
  if t.isEmpty then []
  else
    let ls := splitLines t
    if ls.getLast? = some [] then ls.dropLast else ls

/-- `format_text_with_marks` (jira.rs): wrap a text run in textual
delimiters, one layer per mark in encounter order; `link` marks contribute
no delimiter. -/
def format_text_with_marks (text : List Char) (marks : Option (List Json)) : List Char :=
  match marks with
  | some ms =>
    if ms.isEmpty then text
    else ms.foldl (fun result mark =>
      match (mark.get "type").bind Json.asStr with
      | some s =>
        if s = "strong".data then "**".data ++ result ++ "**".data
        else if s = "em".data then '_' :: result ++ "_".data
        else if s = "code".data then "`".data ++ result ++ "`".data
        else if s = "strike".data then "~".data ++ result ++ "~".data
        else result
      | none => result) text
  | none => text

mutual

/-- `adf_to_text` (jira.rs): decode an ADF tree into lightweight markup.
Dispatch is purely structural on the node's `type` field; unknown or
malformed nodes degrade to their children's text. -/
def adf_to_text (j : Json) : List Char :=
  let ty := nodeType j
  if ty = some "doc".data then adf_children_text j
  else if ty = some "paragraph".data then adf_children_text j ++ ['\n']
  else if ty = some "heading".data then
    let level := (((j.get "attrs").bind (Json.get · "level")).bind Json.asNat).getD 1
    List.replicate level '#' ++ ' ' :: (adf_children_text j ++ ['\n'])
  else if ty = some "text".data then
    let raw := ((j.get "text").bind Json.asStr).getD []
    format_text_with_marks raw ((j.get "marks").bind Json.asArr)
  else if ty = some "hardBreak".data then ['\n']
  else if ty = some "bulletList".data then adf_children_text j
  else if ty = some "orderedList".data then
    match h : Json.contentArr j with
    | some arr => ((arr.attach.enum).map (fun p =>
        "  ".data ++ (Nat.repr (p.1 + 1)).data ++ ". ".data ++
          adf_children_text p.2.1)).flatten
    | none => []
  else if ty = some "listItem".data then "  - ".data ++ adf_children_text j
  else if ty = some "blockquote".data then
    ((rustLines (adf_children_text j)).map (fun l => "> ".data ++ l ++ ['\n'])).flatten
  else if ty = some "codeBlock".data then
    let lang := (((j.get "attrs").bind (Json.get · "language")).bind Json.asStr).getD []
    "```".data ++ lang ++ '\n' :: (adf_children_text j ++ "```".data ++ ['\n'])
  else if ty = some "mention".data then
    (((j.get "attrs").bind (Json.get · "text")).bind Json.asStr).getD "@someone".data
  else if ty = some "emoji".data then
    (((j.get "attrs").bind (Json.get · "shortName")).bind Json.asStr).getD []
  else if ty = some "inlineCard".data then
    (((j.get "attrs").bind (Json.get · "url")).bind Json.asStr).getD "[link]".data
  else if ty = some "mediaGroup".data ∨ ty = some "mediaSingle".data then "[media]\n".data
  else if ty = some "media".data then "[media]".data
  else if ty = some "rule".data then "────────\n".data
  else if ty = some "table".data ∨ ty = some "tableRow".data ∨
      ty = some "tableCell".data ∨ ty = some "tableHeader".data then
    adf_children_text j ++ ['\n']
  else adf_children_text j
termination_by (sizeOf j, 1)
decreasing_by
  all_goals simp_wf
  all_goals first
    | exact Prod.Lex.right _ (by omega)
    | exact Prod.Lex.left _ _ (contentArr_sizeOf h p.2.2)

/-- `adf_children_text` (jira.rs): concatenation of the children's text. -/
def adf_children_text (j : Json) : List Char :=
  match h : Json.contentArr j with
  | some arr => (arr.attach.map (fun x => adf_to_text x.1)).flatten
  | none => []
termination_by (sizeOf j, 0)
decreasing_by
  simp_wf
  exact Prod.Lex.left _ _ (contentArr_sizeOf h x.2)

end

-- ### `app.rs` / `main.rs`: mention tracker and editing primitives

/-- `ResolvedMention` (app.rs): a committed mention span over the live
buffer. -/
structure ResolvedMention where
  start_pos : Nat
  len : Nat
  account_id : List Char
  display_name : List Char
deriving DecidableEq, Repr

/-- `App::invalidate_overlapping_mentions` (app.rs): `retain` exactly the
spans whose `start_pos + len` is within the buffer and whose recorded range
still reads `"@" + display_name`. -/
def invalidate_overlapping_mentions (chars : List Char)
    (spans : List ResolvedMention) : List ResolvedMention :=
  spans.filter (fun rm =>
    let e := rm.start_pos + rm.len
    if chars.length < e then false
    else sliceChars chars rm.start_pos e == '@' :: rm.display_name)

/-- `char_byte_pos` (main.rs) in the character model: the insertion index of
the `char_pos`-th character, clamped to the end of the string. -/
def char_index_pos (s : List Char) (char_pos : Nat) : Nat :=
  min char_pos s.length

/-- `input_insert` (main.rs): insert `c` at the cursor, advancing it. -/
def input_insert (s : List Char) (cursor : Nat) (c : Char) : List Char × Nat :=
  let bp := char_index_pos s cursor
  (s.take bp ++ c :: s.drop bp, cursor + 1)

/-- `input_backspace` (main.rs): delete the character before the cursor
(no-op at the start of the buffer). -/
def input_backspace (s : List Char) (cursor : Nat) : List Char × Nat :=
  if 0 < cursor then
    let bp := char_index_pos s (cursor - 1)
    (s.eraseIdx bp, cursor - 1)
  else (s, cursor)

/-- `input_delete` (main.rs): delete the character under the cursor. -/
def input_delete (s : List Char) (cursor : Nat) : List Char × Nat :=
  if cursor < s.length then (s.eraseIdx (char_index_pos s cursor), cursor)
  else (s, cursor)

-- ### `app.rs`: `fuzzy_match`

/-- The scanning `while` loop of `fuzzy_match`: first index `j ≥ i` with
`hay[j] = nc`, scanning forward from `i`. -/
def fuzzyScan (hay : List Char) (nc : Char) (i : Nat) : Option Nat :=
  (findIdxP (· = nc) (hay.drop i)).map (· + i)

/-- The outer `for nc in &needle_lower` loop of `fuzzy_match`. -/
def fuzzyGo (hay : List Char) : List Char → Nat → Option (List Nat)
  | [], _ => some []
  | nc :: rest, i =>
    match fuzzyScan hay nc i with
    | none => none
    | some j => (fuzzyGo hay rest (j + 1)).map (j :: ·)

/-- `fuzzy_match` (app.rs): case-insensitive greedy subsequence match
returning matched character positions.  Lowercasing models Rust's
`flat_map(char::to_lowercase)` by the single-character map `Char.toLower`
(they agree on every character whose Unicode lowercasing is one character,
in particular on all ASCII input). -/
def fuzzy_match (haystack needle : List Char) : Option (List Nat) :=
  fuzzyGo (haystack.map Char.toLower) (needle.map Char.toLower) 0

-- ### The comment-editing state machine (main.rs run loop, app.rs methods)

/-- A user record from the mention lookup (`JiraUser`). -/
structure JiraUserM where
  account_id : List Char
  display_name : List Char
deriving DecidableEq, Repr

/-- `MentionState` (app.rs): the transient mention-composing state. -/
structure MentionState where
  trigger_pos : Nat
  query : List Char
  candidates : List JiraUserM
  selected : Nat
deriving DecidableEq, Repr

/-- The slice of `App` state the comment-editing key handlers touch.
`editing` is true while the mode is `DetailAddingComment` or
`DetailEditingComment`. -/
structure EditorState where
  comment_input : List Char
  cursor_pos : Nat
  mention : Option MentionState
  resolved_mentions : List ResolvedMention
  last_mention_query : List Char
  editing : Bool
deriving DecidableEq, Repr

/-- `App::activate_mention` (app.rs): open the mention overlay with
`trigger_pos` at the current cursor. -/
def activate_mention (s : EditorState) : EditorState :=
  { s with mention := some { trigger_pos := s.cursor_pos, query := [],
                             candidates := [], selected := 0 } }

/-- `App::update_mention_query` (app.rs): refresh the query from
`buffer[trigger_pos..cursor_pos]`. -/
def update_mention_query (s : EditorState) : EditorState :=
  match s.mention with
  | some m =>
    if m.trigger_pos ≤ s.comment_input.length then
      let q := sliceChars s.comment_input m.trigger_pos s.cursor_pos
      { s with mention := some { m with query := q } }
    else s
  | none => s

/-- `App::mention_move_up` (app.rs). -/
def mention_move_up (s : EditorState) : EditorState :=
  match s.mention with
  | some m => if 0 < m.selected then
      { s with mention := some { m with selected := m.selected - 1 } } else s
  | none => s

/-- `App::mention_move_down` (app.rs). -/
def mention_move_down (s : EditorState) : EditorState :=
  match s.mention with
  | some m =>
    if ¬ m.candidates.isEmpty ∧ m.selected < m.candidates.length - 1 then
      { s with mention := some { m with selected := m.selected + 1 } }
    else s
  | none => s

/-- `App::cancel_mention` (app.rs). -/
def cancel_mention (s : EditorState) : EditorState :=
  { s with mention := none, last_mention_query := [] }

/-- `App::fetch_mention_candidates` (app.rs).  The network call is the
caller's collaborator: `response` is its outcome (`none` = error, silently
ignored), applied exactly under the code's debounce conditions. -/
def fetch_mention_candidates (s : EditorState) (response : Option (List JiraUserM)) :
    EditorState :=
  match s.mention with
  | none => s
  | some m =>
    if m.query.isEmpty then
      { s with last_mention_query := [],
               mention := some { m with candidates := [], selected := 0 } }
    else if m.query = s.last_mention_query then s
    else
      match response with
      | some users =>
        { s with last_mention_query := m.query,
                 mention := some { m with candidates := users, selected := 0 } }
      | none => { s with last_mention_query := m.query }

/-- Rust `as usize` on an `isize`: two's-complement wrap at 64 bits. -/
def usizeOfInt (i : Int) : Nat := (i.emod (2 ^ 64)).toNat

/-- `App::select_mention` (app.rs): commit the highlighted candidate —
replace `[trigger_pos - 1, cursor_pos)` by `"@" + display_name + " "`,
record the new span, and shift the `start_pos` of other spans after the
edit by the signed length delta.  (No-op when no overlay or no candidate.) -/
def select_mention (s : EditorState) : EditorState :=
  match s.mention with
  | none => s
  | some m =>
    match m.candidates.get? m.selected with
    | none => s
    | some cand =>
      let at_pos := m.trigger_pos - 1
      let replace_text := '@' :: cand.display_name ++ [' ']
      let replace_char_len := replace_text.length
      let chars := s.comment_input
      let new_chars := chars.take at_pos ++ replace_text ++ chars.drop s.cursor_pos
      let old_cursor := s.cursor_pos
      let mention_text_len := replace_char_len - 1
      let resolved1 := s.resolved_mentions ++
        [{ start_pos := at_pos, len := mention_text_len,
           account_id := cand.account_id, display_name := cand.display_name }]
      let shift : Int := (replace_char_len : Int) - ((old_cursor - at_pos : Nat) : Int)
      let resolved2 :=
        if shift ≠ 0 then
          resolved1.map (fun rm =>
            if at_pos < rm.start_pos ∧ rm.start_pos ≠ at_pos then
              { rm with start_pos := usizeOfInt ((rm.start_pos : Int) + shift) }
            else rm)
        else resolved1
      { s with comment_input := new_chars, cursor_pos := at_pos + replace_char_len,
               resolved_mentions := resolved2, mention := none }

/-- `App::cancel_comment_action` (app.rs). -/
def cancel_comment_action (s : EditorState) : EditorState :=
  { s with comment_input := [], mention := none, last_mention_query := [],
           resolved_mentions := [], editing := false }

/-- Rust `str::trim`. -/
def trimChars (t : List Char) : List Char :=
  ((t.dropWhile Char.isWhitespace).reverse.dropWhile Char.isWhitespace).reverse

/-- `App::submit_comment` / `App::save_edited_comment` (app.rs): state
effects only — the network send's outcome is `netOk` (both functions mutate
the modelled fields identically; an open issue detail is assumed, as these
modes are only reachable with one). -/
def submit_comment (s : EditorState) (netOk : Bool) : EditorState :=
  if (trimChars s.comment_input).isEmpty then cancel_comment_action s
  else if netOk then
    { s with comment_input := [], mention := none, resolved_mentions := [],
             editing := false }
  else { s with editing := false }

/-- The key events the `DetailAddingComment` / `DetailEditingComment` match
arms distinguish (main.rs). -/
inductive Key where
  | up | down | enter | tab | esc | backspace | delete
  | left | right | home | keyEnd | char (c : Char)
deriving DecidableEq, Repr

/-- One key event of the comment-editing run loop (main.rs lines 240–341):
the mention-overlay branch when composing, the normal editing branch
otherwise.  `lookup` is the outcome of the candidate search the handler may
issue, `netOk` the outcome of a submit. -/
def comment_edit_step (s : EditorState) (k : Key)
    (lookup : Option (List JiraUserM)) (netOk : Bool) : EditorState :=
  if ¬ s.editing then s
  else match s.mention with
  | some _ =>
    match k with
    | .up => mention_move_up s
    | .down => mention_move_down s
    | .enter => select_mention s
    | .tab => select_mention s
    | .esc => cancel_mention s
    | .backspace =>
      let trigger_pos := (s.mention.map (·.trigger_pos)).getD 0
      let r := input_backspace s.comment_input s.cursor_pos
      let s1 := { s with comment_input := r.1, cursor_pos := r.2 }
      if s1.cursor_pos < trigger_pos then cancel_mention s1
      else fetch_mention_candidates (update_mention_query s1) lookup
    | .char c =>
      if c = ' ' then
        let s1 := cancel_mention s
        let r := input_insert s1.comment_input s1.cursor_pos ' '
        { s1 with comment_input := r.1, cursor_pos := r.2 }
      else
        let r := input_insert s.comment_input s.cursor_pos c
        let s1 := { s with comment_input := r.1, cursor_pos := r.2 }
        fetch_mention_candidates (update_mention_query s1) lookup
    | _ => s
  | none =>
    match k with
    | .enter => submit_comment s netOk
    | .esc => cancel_comment_action s
    | .left => if 0 < s.cursor_pos then { s with cursor_pos := s.cursor_pos - 1 } else s
    | .right =>
      if s.cursor_pos < s.comment_input.length then
        { s with cursor_pos := s.cursor_pos + 1 }
      else s
    | .home => { s with cursor_pos := 0 }
    | .keyEnd => { s with cursor_pos := s.comment_input.length }
    | .backspace =>
      let r := input_backspace s.comment_input s.cursor_pos
      { s with comment_input := r.1, cursor_pos := r.2,
               resolved_mentions := invalidate_overlapping_mentions r.1 s.resolved_mentions }
    | .delete =>
      let r := input_delete s.comment_input s.cursor_pos
      { s with comment_input := r.1, cursor_pos := r.2,
               resolved_mentions := invalidate_overlapping_mentions r.1 s.resolved_mentions }
    | .char c =>
      if c = '@' then
        let r := input_insert s.comment_input s.cursor_pos '@'
        activate_mention { s with comment_input := r.1, cursor_pos := r.2 }
      else
        let r := input_insert s.comment_input s.cursor_pos c
        { s with comment_input := r.1, cursor_pos := r.2,
                 resolved_mentions := invalidate_overlapping_mentions r.1 s.resolved_mentions }
    | _ => s

/-- `App::start_adding_comment` (app.rs). -/
def start_adding_comment (s : EditorState) : EditorState :=
  { s with comment_input := [], cursor_pos := 0, mention := none,
           last_mention_query := [], resolved_mentions := [], editing := true }

/-- `App::start_editing_comment` (app.rs), success path (the early-return
guards leave the state unchanged and outside the editing modes). -/
def start_editing_comment (s : EditorState) (body : List Char) : EditorState :=
  { s with comment_input := body, cursor_pos := body.length, mention := none,
           last_mention_query := [], resolved_mentions := [], editing := true }

/-- Inductive invariant of the comment-editing loop: the cursor stays inside
the buffer, and whenever the mention overlay exists its `trigger_pos` is at
least 1 (the `'@'` sits at `trigger_pos - 1`) and at most the cursor. -/
def EditorInv (s : EditorState) : Prop :=
  (s.editing = true → s.cursor_pos ≤ s.comment_input.length) ∧
  ∀ m, s.mention = some m →
    1 ≤ m.trigger_pos ∧ m.trigger_pos ≤ s.cursor_pos ∧
      s.cursor_pos ≤ s.comment_input.length

-- ### `ui.rs`: `parse_inline_markdown`

/-- The distinct `Style` values `parse_inline_markdown` attaches to
fragments (body text, bold, inline code, link). -/
inductive SpanStyle where
  | body | bold | codeStyle | linkStyle
deriving DecidableEq, Repr

/-- A ratatui `Span`: a text fragment with its style. -/
structure RSpan where
  content : List Char
  style : SpanStyle
deriving DecidableEq, Repr

/-- The four inline markers the scanner races (ui.rs encodes them as the
`u8` tags 0–3; an enum makes the `unreachable!()` arm vanish statically). -/
inductive Marker where
  | mBold | mCode | mBracket | mUrl
deriving DecidableEq, Repr

/-- The punctuation characters stripped from the end of a bare URL
(`. , ) ; : ! ?`). -/
def isUrlTrailPunct (c : Char) : Bool :=
  c = '.' || c = ',' || c = ')' || c = ';' || c = ':' || c = '!' || c = '?'

/-- Rust `str::trim_end_matches(pred)`. -/
def trimEndMatches (p : Char → Bool) (l : List Char) : List Char :=
  (l.reverse.dropWhile p).reverse

/-- `min` of the two optional URL positions (`[find https, find http]
.into_iter().flatten().min()`). -/
def optMinNat : Option Nat → Option Nat → Option Nat
  | some x, some y => some (min x y)
  | some x, none => some x
  | none, some y => some y
  | none, none => none

/-- The candidate list `[find "**", find '`', find '[', url_pos]` with its
marker tags, `None`s flattened away. -/
def candidatesOf (rem : List Char) : List (Nat × Marker) :=
  ((findSub "**".data rem).map (fun p => (p, Marker.mBold))).toList ++
  ((findSub "`".data rem).map (fun p => (p, Marker.mCode))).toList ++
  ((findSub "[".data rem).map (fun p => (p, Marker.mBracket))).toList ++
  ((optMinNat (findSub "https://".data rem) (findSub "http://".data rem)).map
      (fun p => (p, Marker.mUrl))).toList

/-- `min_by_key(|(p, _)| *p)`: the first element of least position. -/
def minPairFst : List (Nat × Marker) → Option (Nat × Marker)
  | [] => none
  | x :: xs =>
    match minPairFst xs with
    | none => some x
    | some y => if x.1 ≤ y.1 then some x else some y

theorem minPairFst_mem {l : List (Nat × Marker)} {x : Nat × Marker}
    (h : minPairFst l = some x) : x ∈ l := by
  induction l generalizing x with
  | nil => cases h
  | cons a as ih =>
    simp only [minPairFst] at h
    cases hm : minPairFst as with
    | none =>
      rw [hm] at h
      simp only at h
      cases h
      exact List.mem_cons_self a as
    | some y =>
      rw [hm] at h
      simp only at h
      by_cases hle : a.1 ≤ y.1
      · rw [if_pos hle] at h
        cases h
        exact List.mem_cons_self a as
      · rw [if_neg hle] at h
        cases h
        exact List.mem_cons_of_mem a (ih hm)

/-- The bare-URL arm of `parse_inline_markdown` (ui.rs lines 1833–1848):
the token runs to the first whitespace, trailing punctuation is trimmed
from it, the trimmed URL is pushed as the link fragment, and scanning
resumes right after the trimmed URL. -/
def urlBranch (remaining : List Char) (pos : Nat) : RSpan × List Char :=
  let url_text := remaining.drop pos
  let e := firstWsIdx url_text
  let raw_url := url_text.take e
  let url := trimEndMatches isUrlTrailPunct raw_url
  (⟨url, .linkStyle⟩, remaining.drop (pos + url.length))

theorem candidates_url {rem : List Char} {p : Nat}
    (h : (p, Marker.mUrl) ∈ candidatesOf rem) :
    optMinNat (findSub "https://".data rem) (findSub "http://".data rem) = some p := by
  simp only [candidatesOf, List.mem_append, Option.mem_toList, Option.mem_def,
    Option.map_eq_some'] at h
  rcases h with ((⟨q, _, hq⟩ | ⟨q, _, hq⟩) | ⟨q, _, hq⟩) | ⟨q, hq, he⟩
  · cases hq
  · cases hq
  · cases hq
  · cases he; exact hq

theorem optMin_head {rem : List Char} {p : Nat}
    (h : optMinNat (findSub "https://".data rem) (findSub "http://".data rem) = some p) :
    ∃ r2, rem.drop p = 'h' :: r2 := by
  cases h1 : findSub "https://".data rem with
  | some x =>
    cases h2 : findSub "http://".data rem with
    | some y =>
      rw [h1, h2] at h
      simp only [optMinNat] at h
      cases h
      by_cases hxy : x ≤ y
      · obtain ⟨t, ht⟩ := findSub_starts h1
        refine ⟨"ttps://".data ++ t, ?_⟩
        rw [Nat.min_def, if_pos hxy, ← ht]
        rfl
      · obtain ⟨t, ht⟩ := findSub_starts h2
        refine ⟨"ttp://".data ++ t, ?_⟩
        rw [Nat.min_def, if_neg hxy, ← ht]
        rfl
    | none =>
      rw [h1, h2] at h
      simp only [optMinNat] at h
      cases h
      obtain ⟨t, ht⟩ := findSub_starts h1
      exact ⟨_, by rw [← ht]; rfl⟩
  | none =>
    cases h2 : findSub "http://".data rem with
    | some y =>
      rw [h1, h2] at h
      simp only [optMinNat] at h
      cases h
      obtain ⟨t, ht⟩ := findSub_starts h2
      exact ⟨_, by rw [← ht]; rfl⟩
    | none => rw [h1, h2] at h; simp [optMinNat] at h

theorem trimEndMatches_cons_ne_nil {p : Char → Bool} {c : Char} {t : List Char}
    (hc : p c = false) : trimEndMatches p (c :: t) ≠ [] := by
  intro h
  simp only [trimEndMatches] at h
  rw [List.reverse_eq_nil_iff, List.dropWhile_eq_nil_iff] at h
  have := h c (by simp)
  rw [hc] at this
  cases this

theorem urlBranch_rest_lt {rem : List Char} {pos : Nat} {r2 : List Char}
    (hne : rem ≠ []) (hdrop : rem.drop pos = 'h' :: r2) :
    (urlBranch rem pos).2.length < rem.length := by
  have hurl : trimEndMatches isUrlTrailPunct ((rem.drop pos).take (firstWsIdx (rem.drop pos))) ≠ [] := by
    rw [hdrop]
    cases hk : firstWsIdx ('h' :: r2) with
    | zero =>
      have := @firstWsIdx_pos 'h' r2 (by decide)
      omega
    | succ n =>
      simp only [List.take_succ_cons]
      exact trimEndMatches_cons_ne_nil (by decide)
  have hlen : 1 ≤ (trimEndMatches isUrlTrailPunct
      ((rem.drop pos).take (firstWsIdx (rem.drop pos)))).length :=
    Nat.one_le_iff_ne_zero.mpr (fun h => hurl (List.length_eq_zero.mp h))
  have hr : 1 ≤ rem.length :=
    Nat.one_le_iff_ne_zero.mpr (fun h => hne (List.length_eq_zero.mp h))
  simp only [urlBranch, List.length_drop]
  omega

/-- The scanning `while` loop of `parse_inline_markdown` (ui.rs): race the
four inline markers, emit the text before the nearest one as a body span,
then handle the marker's arm and continue on the rest. -/
def pim_go (remaining : List Char) : List RSpan :=
  if hrem : remaining.isEmpty then []
  else
    match hn : minPairFst (candidatesOf remaining) with
    | none => [⟨remaining, .body⟩]
    | some pm =>
      let pos := pm.1
      let pre : List RSpan := if 0 < pos then [⟨remaining.take pos, .body⟩] else []
      match hm : pm.2 with
      | .mBold =>
        let after := remaining.drop (pos + 2)
        match findSub "**".data after with
        | some e => pre ++ ⟨after.take e, .bold⟩ :: pim_go (after.drop (e + 2))
        | none => pre ++ ⟨"**".data, .body⟩ :: pim_go after
      | .mCode =>
        let after := remaining.drop (pos + 1)
        match findSub "`".data after with
        | some e => pre ++ ⟨after.take e, .codeStyle⟩ :: pim_go (after.drop (e + 1))
        | none => pre ++ ⟨"`".data, .body⟩ :: pim_go after
      | .mBracket =>
        let after := remaining.drop (pos + 1)
        match findSub "](".data after with
        | some bracket_end =>
          let link_text := after.take bracket_end
          let url_part := after.drop (bracket_end + 2)
          match findSub ")".data url_part with
          | some paren_end =>
            let url := url_part.take paren_end
            let shown := if link_text = url ∨ link_text.isEmpty then url else link_text
            pre ++ ⟨shown, .linkStyle⟩ :: pim_go (url_part.drop (paren_end + 1))
          | none => pre ++ ⟨"[".data, .body⟩ :: pim_go after
        | none => pre ++ ⟨"[".data, .body⟩ :: pim_go after
      | .mUrl =>
        let b := urlBranch remaining pos
        pre ++ b.1 :: pim_go b.2
termination_by remaining.length
decreasing_by
  all_goals
    have hne : remaining ≠ [] := fun h => hrem (List.isEmpty_iff.mpr h)
  all_goals
    have hr : 1 ≤ remaining.length := List.length_pos.mpr hne
  all_goals
    try (simp only [List.length_drop]; omega)
  all_goals
    have hmem : (pm.1, Marker.mUrl) ∈ candidatesOf remaining := by
      have h0 := minPairFst_mem hn
      rw [show pm = (pm.1, Marker.mUrl) from Prod.ext rfl hm] at h0
      exact h0
  all_goals
    exact urlBranch_rest_lt hne (optMin_head (candidates_url hmem)).choose_spec

/-- `parse_inline_markdown` (ui.rs): parse one already-wrapped line into
styled fragments. -/
def parse_inline_markdown (text : List Char) : List RSpan :=
  if text.isEmpty then [⟨[], .body⟩]
  else
    let spans := pim_go text
    if spans.isEmpty then [⟨[], .body⟩] else spans

/-- The link-map construction (ui.rs lines 1245–1256): a rendered line's
click target is the content of its first span that starts with `http://`
or `https://`. -/
def line_link (spans : List RSpan) : Option (List Char) :=
  (spans.find? (fun sp => "http://".data.isPrefixOf sp.content ||
      "https://".data.isPrefixOf sp.content)).map (·.content)

-- ### Derived notions used by the statements

/-- Typing `cs` character by character at the cursor in the normal comment
editing branch (main.rs: each `KeyCode::Char` event is `input_insert`
followed by `invalidate_overlapping_mentions`). -/
def typing_insert : List Char → Nat → List ResolvedMention → List Char →
    List Char × Nat × List ResolvedMention
  | buf, cursor, spans, [] => (buf, cursor, spans)
  | buf, cursor, spans, c :: cs =>
    let r := input_insert buf cursor c
    typing_insert r.1 r.2 (invalidate_overlapping_mentions r.1 spans) cs

/-- The three single-character plain-text edits of the comment editor. -/
inductive EditOp where
  | insertChar (c : Char) | backspaceOne | deleteForward
deriving DecidableEq, Repr

/-- Apply one edit at the cursor (main.rs `Char` / `Backspace` / `Delete`
handlers call these primitives). -/
def apply_edit (buf : List Char) (cursor : Nat) : EditOp → List Char × Nat
  | .insertChar c => input_insert buf cursor c
  | .backspaceOne => input_backspace buf cursor
  | .deleteForward => input_delete buf cursor

/-- The buffer position an edit touches: the insertion point for an insert,
the removed character's index for backspace / delete-forward. -/
def edit_pos (cursor : Nat) : EditOp → Nat
  | .insertChar _ => cursor
  | .backspaceOne => cursor - 1
  | .deleteForward => cursor

/-- The `[lineStart, lineEnd)` character ranges the encoder's scan assigns
to the lines. -/
def lineRanges : List (List Char) → Nat → List (Nat × Nat)
  | [], _ => []
  | l :: rest, s => (s, s + l.length) :: lineRanges rest (s + l.length + 1)

/-- A span's `start` falls inside some line's `[lineStart, lineEnd)` range
(the encoder's per-line membership filter). -/
def span_in_some_line (text : List Char) (m : MentionInsert) : Bool :=
  (lineRanges (splitLines text) 0).any (fun r => r.1 ≤ m.start && m.start < r.2)

/-- Number of mention nodes in a paragraph's content. -/
def paragraph_mention_count (p : Json) : Nat :=
  match Json.contentArr p with
  | some ns => ns.countP isMentionNode
  | none => 0

/-- Number of mention nodes across a document's paragraphs. -/
def doc_mention_count (d : Json) : Nat :=
  match Json.contentArr d with
  | some ps => (ps.map paragraph_mention_count).sum
  | none => 0

/-- Refinement spec for the fuzzy matcher, following the claim's words:
each needle character in order is matched at the next occurrence strictly
after the previously matched haystack index (`hmin` states "next": no
earlier occurrence from the scan start). -/
inductive GreedyMatchSpec (hay : List Char) : Nat → List Char → List Nat → Prop
  | nil (i : Nat) : GreedyMatchSpec hay i [] []
  | cons {i j : Nat} {nc : Char} {rest : List Char} {ps : List Nat}
      (hij : i ≤ j) (hj : hay[j]? = some nc)
      (hmin : ∀ t : Nat, i ≤ t → t < j → hay[t]? ≠ some nc)
      (hrest : GreedyMatchSpec hay (j + 1) rest ps) :
      GreedyMatchSpec hay i (nc :: rest) (j :: ps)

-- ## Lemmas about the validation pass and plain-text edits

theorem mem_invalidate {chars : List Char} {spans : List ResolvedMention}
    {s : ResolvedMention} :
    s ∈ invalidate_overlapping_mentions chars spans ↔
      s ∈ spans ∧ s.start_pos + s.len ≤ chars.length ∧
        sliceChars chars s.start_pos (s.start_pos + s.len) = '@' :: s.display_name := by
  simp only [invalidate_overlapping_mentions, List.mem_filter]
  constructor
  · rintro ⟨hm, hb⟩
    by_cases hlt : chars.length < s.start_pos + s.len
    · rw [if_pos hlt] at hb; cases hb
    · rw [if_neg hlt] at hb
      exact ⟨hm, by omega, by simpa using hb⟩
  · rintro ⟨hm, h1, h2⟩
    refine ⟨hm, ?_⟩
    rw [if_neg (by omega)]
    simpa using h2

theorem invalidate_sublist (chars : List Char) (spans : List ResolvedMention) :
    List.Sublist (invalidate_overlapping_mentions chars spans) spans :=
  List.filter_sublist _

/-- Inserting `cs` at position `p` does not disturb the characters of a
range that ends at or before `p`. -/
theorem sliceChars_insert (buf cs : List Char) (p a e : Nat)
    (hp : p ≤ buf.length) (hae : a ≤ e) (hep : e ≤ p) :
    sliceChars (buf.take p ++ cs ++ buf.drop p) a e = sliceChars buf a e := by
  unfold sliceChars
  have hlt : (buf.take p).length = p := by
    rw [List.length_take]; omega
  rw [List.append_assoc, List.drop_append_eq_append_drop,
    List.take_append_eq_append_take]
  have h1 : ((buf.take p).drop a).length = p - a := by
    rw [List.length_drop, hlt]
  rw [h1, hlt]
  have h2 : e - a - (p - a) = 0 := by omega
  have h3 : a - p = 0 := by omega
  rw [h2, h3, List.take_zero, List.append_nil]
  rw [List.drop_take, List.take_take, Nat.min_eq_left (by omega)]

theorem input_insert_at (buf : List Char) (p : Nat) (c : Char) (hp : p ≤ buf.length) :
    input_insert buf p c = (buf.take p ++ c :: buf.drop p, p + 1) := by
  unfold input_insert char_index_pos
  rw [Nat.min_eq_left hp]

theorem typing_insert_spec (cs : List Char) :
    ∀ (buf : List Char) (p : Nat) (spans : List ResolvedMention), p ≤ buf.length →
    (typing_insert buf p spans cs).1 = buf.take p ++ cs ++ buf.drop p ∧
    (typing_insert buf p spans cs).2.1 = p + cs.length ∧
    List.Sublist (typing_insert buf p spans cs).2.2 spans ∧
    (∀ s ∈ spans, s.start_pos + s.len ≤ p →
      sliceChars buf s.start_pos (s.start_pos + s.len) = '@' :: s.display_name →
      s ∈ (typing_insert buf p spans cs).2.2) := by
  induction cs with
  | nil =>
    intro buf p spans hp
    refine ⟨by simp [typing_insert], by simp [typing_insert],
      by simp [typing_insert], ?_⟩
    intro s hs _ _
    simpa [typing_insert] using hs
  | cons c cs ih =>
    intro buf p spans hp
    have hstep : typing_insert buf p spans (c :: cs) =
        typing_insert (buf.take p ++ c :: buf.drop p) (p + 1)
          (invalidate_overlapping_mentions (buf.take p ++ c :: buf.drop p) spans) cs := by
      simp only [typing_insert, input_insert_at buf p c hp]
    have hlen : (buf.take p ++ c :: buf.drop p).length = buf.length + 1 := by
      simp [List.length_take, List.length_drop]
      omega
    have hp1 : p + 1 ≤ (buf.take p ++ c :: buf.drop p).length := by omega
    obtain ⟨ha, hb, hc, hd⟩ := ih (buf.take p ++ c :: buf.drop p) (p + 1)
      (invalidate_overlapping_mentions (buf.take p ++ c :: buf.drop p) spans) hp1
    have htp : (buf.take p ++ c :: buf.drop p).take (p + 1) = buf.take p ++ [c] := by
      rw [List.take_append_eq_append_take, List.take_take, List.length_take,
        Nat.min_eq_left hp, Nat.min_eq_right (by omega)]
      have h1 : p + 1 - p = 1 := by omega
      rw [h1]
      rfl
    have hdp : (buf.take p ++ c :: buf.drop p).drop (p + 1) = buf.drop p := by
      rw [List.drop_append_eq_append_drop,
        List.drop_eq_nil_of_le (by rw [List.length_take]; omega),
        List.length_take, Nat.min_eq_left hp]
      have h1 : p + 1 - p = 1 := by omega
      rw [h1]
      rfl
    have hslice_pres : ∀ s : ResolvedMention, s.start_pos + s.len ≤ p →
        sliceChars (buf.take p ++ c :: buf.drop p) s.start_pos (s.start_pos + s.len) =
          sliceChars buf s.start_pos (s.start_pos + s.len) := by
      intro s hse
      have := sliceChars_insert buf [c] p s.start_pos (s.start_pos + s.len)
        hp (by omega) hse
      simpa using this
    refine ⟨?_, ?_, ?_, ?_⟩
    · rw [hstep, ha, htp, hdp]
      simp
    · rw [hstep]
      simp only [List.length_cons]
      omega
    · rw [hstep]
      exact hc.trans (invalidate_sublist _ _)
    · intro s hs hse hslice
      rw [hstep]
      have hslice3 : sliceChars (buf.take p ++ c :: buf.drop p) s.start_pos
          (s.start_pos + s.len) = '@' :: s.display_name := by
        rw [hslice_pres s hse, hslice]
      have hs1 : s ∈ invalidate_overlapping_mentions (buf.take p ++ c :: buf.drop p) spans :=
        mem_invalidate.mpr ⟨hs, by omega, hslice3⟩
      exact hd s hs1 (by omega) hslice3

theorem typing_insert_absent (cs : List Char) (hcs : cs ≠ []) :
    ∀ (buf : List Char) (p : Nat) (spans : List ResolvedMention) (s : ResolvedMention),
    ¬ (s.start_pos + s.len ≤ (typing_insert buf p spans cs).1.length ∧
        sliceChars (typing_insert buf p spans cs).1 s.start_pos (s.start_pos + s.len)
          = '@' :: s.display_name) →
      s ∉ (typing_insert buf p spans cs).2.2 := by
  induction cs with
  | nil => exact absurd rfl hcs
  | cons c cs ih =>
    intro buf p spans s hfail hmem
    cases cs with
    | nil =>
      simp only [typing_insert] at hmem hfail
      rw [mem_invalidate] at hmem
      exact hfail ⟨hmem.2.1, hmem.2.2⟩
    | cons c2 cs2 =>
      simp only [typing_insert] at hmem hfail
      exact ih (by simp) _ _ _ s hfail hmem

-- ## Claim C1: mention shift under plain-text insertion

/-- **C1, counterexample.** The claim predicts that inserting one character
at position 0 shifts the span `{start 1, len 5, "Jane"}` to start 2 and
keeps it in the span set.  In the code no shift ever happens on a plain
insert: the span (valid before the edit, third conjunct) keeps `start_pos
1`, the literal-text re-check fails against the shifted buffer, and the
validation pass deletes it — the span set afterwards is empty. -/
theorem c1_counterexample :
    (typing_insert "x@Jane".data 0 [⟨1, 5, "u1".data, "Jane".data⟩] ['z']).1
        = "zx@Jane".data ∧
    sliceChars "x@Jane".data 1 6 = '@' :: "Jane".data ∧
    (typing_insert "x@Jane".data 0 [⟨1, 5, "u1".data, "Jane".data⟩] ['z']).2.2 = [] := by
  decide

/-- **C1, amended.** Typing `cs` (k characters) at buffer position `p` in
the plain-text editor inserts the characters at `p` and moves the cursor to
`p + k`, but applies **no shift** to any recorded span: the resulting span
set is a sublist of the original (records unchanged).  Every span that lies
entirely at or before `p` (`start+len ≤ p`) and matched its buffer text
before the edit is untouched and still present after all the validation
passes; and (for k ≥ 1) every span whose recorded range fails the
literal-text check against the final buffer — in particular, generically,
a span with `start ≥ p`, whose text moved while its record did not — is
absent afterwards. -/
theorem c1_plain_insert_no_shift (buf : List Char) (spans : List ResolvedMention)
    (p : Nat) (cs : List Char) (hp : p ≤ buf.length) :
    (typing_insert buf p spans cs).1 = buf.take p ++ cs ++ buf.drop p ∧
    (typing_insert buf p spans cs).2.1 = p + cs.length ∧
    List.Sublist (typing_insert buf p spans cs).2.2 spans ∧
    (∀ s ∈ spans, s.start_pos + s.len ≤ p →
      sliceChars buf s.start_pos (s.start_pos + s.len) = '@' :: s.display_name →
      s ∈ (typing_insert buf p spans cs).2.2) ∧
    (cs ≠ [] → ∀ s : ResolvedMention,
      ¬ (s.start_pos + s.len ≤ (typing_insert buf p spans cs).1.length ∧
         sliceChars (typing_insert buf p spans cs).1 s.start_pos (s.start_pos + s.len)
           = '@' :: s.display_name) →
      s ∉ (typing_insert buf p spans cs).2.2) := by
  obtain ⟨ha, hb, hc, hd⟩ := typing_insert_spec cs buf p spans hp
  exact ⟨ha, hb, hc, hd, fun hcs s hfail => typing_insert_absent cs hcs buf p spans s hfail⟩

/-- **C1, witness.** Concrete run of the amended theorem: typing `"zz"` at
position 2 of `"@a hi"` keeps the untouched valid span `{start 0, len 2}`. -/
theorem c1_witness :
    (⟨0, 2, "u".data, "a".data⟩ : ResolvedMention) ∈
      (typing_insert "@a hi".data 2 [⟨0, 2, "u".data, "a".data⟩] "zz".data).2.2 :=
  (c1_plain_insert_no_shift "@a hi".data [⟨0, 2, "u".data, "a".data⟩] 2 "zz".data
    (by decide)).2.2.2.1 ⟨0, 2, "u".data, "a".data⟩ (by decide) (by decide) (by decide)

-- ## Claim C4: invalidation of spans edited in their interior

/-- **C4, counterexample.** Delete-forward at position 1 — strictly inside
the span `[0, 3)` of `{start 0, len 3, display_name "aa"}` over the buffer
`"@aaa"` — yields the buffer `"@aa"`, whose characters at `[0, 3)` again
read `"@aa"`; the validation pass therefore **keeps** the span, although
the claim requires it to be absent after any interior edit. -/
theorem c4_counterexample :
    edit_pos 1 EditOp.deleteForward = 1 ∧
    (0 : Nat) ≤ 1 ∧ 1 < 0 + 3 ∧
    (apply_edit "@aaa".data 1 EditOp.deleteForward).1 = "@aa".data ∧
    invalidate_overlapping_mentions (apply_edit "@aaa".data 1 EditOp.deleteForward).1
        [⟨0, 3, "u1".data, "aa".data⟩] = [⟨0, 3, "u1".data, "aa".data⟩] := by
  decide

/-- **C4, amended.** After a single-character edit (insert, backspace or
delete-forward) whose edit position lies inside `[start, start+len)` of a
tracked span, that span is absent from the span set after the validation
pass **unless** the post-edit buffer coincidentally still reads
`"@" + display_name` at the recorded range (possible with repeated
characters): the span survives the pass if and only if the literal-text
check passes against the post-edit buffer. -/
theorem c4_interior_edit_invalidation (buf : List Char) (cursor : Nat)
    (spans : List ResolvedMention) (op : EditOp) (s : ResolvedMention)
    (hs : s ∈ spans) (h1 : s.start_pos ≤ edit_pos cursor op)
    (h2 : edit_pos cursor op < s.start_pos + s.len) :
    s ∈ invalidate_overlapping_mentions (apply_edit buf cursor op).1 spans ↔
      s.start_pos + s.len ≤ (apply_edit buf cursor op).1.length ∧
      sliceChars (apply_edit buf cursor op).1 s.start_pos (s.start_pos + s.len)
        = '@' :: s.display_name := by
  rw [mem_invalidate]
  exact ⟨fun h => ⟨h.2.1, h.2.2⟩, fun h => ⟨hs, h.1, h.2⟩⟩

/-- **C4, witness.** The amended theorem applied to the `"@aaa"` example:
the interior delete leaves text that still matches, so the span stays. -/
theorem c4_witness :
    (⟨0, 3, "u1".data, "aa".data⟩ : ResolvedMention) ∈
      invalidate_overlapping_mentions (apply_edit "@aaa".data 1 EditOp.deleteForward).1
        [⟨0, 3, "u1".data, "aa".data⟩] :=
  (c4_interior_edit_invalidation "@aaa".data 1 [⟨0, 3, "u1".data, "aa".data⟩]
    EditOp.deleteForward ⟨0, 3, "u1".data, "aa".data⟩
    (by decide) (by decide) (by decide)).mpr (by decide)

-- ## Claim C5: the validation pass is exactly the literal-text filter

/-- **C5.** After the validation pass that follows any edit, a span is in
the resulting set exactly when it was tracked before, `start+len` is within
the buffer's character length, and the buffer characters at
`[start, start+len)` read exactly `"@" + display_name`; and the pass only
removes spans — the survivors are a sublist of the input with `start`,
`len`, `account_id` and `display_name` unchanged. -/
theorem c5_validation_pass (chars : List Char) (spans : List ResolvedMention) :
    (∀ s : ResolvedMention, s ∈ invalidate_overlapping_mentions chars spans ↔
      s ∈ spans ∧ s.start_pos + s.len ≤ chars.length ∧
        sliceChars chars s.start_pos (s.start_pos + s.len) = '@' :: s.display_name) ∧
    List.Sublist (invalidate_overlapping_mentions chars spans) spans :=
  ⟨fun _ => mem_invalidate, invalidate_sublist chars spans⟩

/-- **C5, witness.** A concrete valid span is kept by the pass. -/
theorem c5_witness :
    (⟨0, 5, "u".data, "Jane".data⟩ : ResolvedMention) ∈
      invalidate_overlapping_mentions "@Jane".data [⟨0, 5, "u".data, "Jane".data⟩] :=
  ((c5_validation_pass "@Jane".data [⟨0, 5, "u".data, "Jane".data⟩]).1
    ⟨0, 5, "u".data, "Jane".data⟩).mpr (by decide)

-- ## Lemmas about the fuzzy matcher

theorem fuzzyScan_some {hay : List Char} {nc : Char} {i j : Nat}
    (h : fuzzyScan hay nc i = some j) :
    i ≤ j ∧ hay[j]? = some nc ∧ ∀ (t : Nat), i ≤ t → t < j → hay[t]? ≠ some nc := by
  rcases Option.map_eq_some'.mp h with ⟨k, hk, rfl⟩
  obtain ⟨a, ha, hpa, hmin⟩ := findIdxP_some hk
  have hank : a = nc := by simpa using hpa
  subst hank
  rw [List.getElem?_drop] at ha
  refine ⟨by omega, by rw [Nat.add_comm] at ha; exact ha, ?_⟩
  intro t hit htk hcontra
  have h1 : (hay.drop i)[t - i]? = some a := by
    rw [List.getElem?_drop]
    have he : i + (t - i) = t := by omega
    rw [he]
    exact hcontra
  have h2 := hmin (t - i) (by omega) a h1
  simp at h2

theorem fuzzyScan_none {hay : List Char} {nc : Char} {i : Nat}
    (h : fuzzyScan hay nc i = none) :
    ∀ (t : Nat), i ≤ t → hay[t]? ≠ some nc := by
  intro t hit hc
  have h0 := Option.map_eq_none'.mp h
  have h1 : (hay.drop i)[t - i]? = some nc := by
    rw [List.getElem?_drop]
    have he : i + (t - i) = t := by omega
    rw [he]
    exact hc
  have h2 := findIdxP_none h0 (t - i) nc h1
  simp at h2

theorem fuzzyScan_complete {hay : List Char} {nc : Char} {i t : Nat}
    (hit : i ≤ t) (h : hay[t]? = some nc) :
    (fuzzyScan hay nc i).isSome := by
  have h1 : (hay.drop i)[t - i]? = some nc := by
    rw [List.getElem?_drop]
    have he : i + (t - i) = t := by omega
    rw [he]
    exact h
  have h2 := findIdxP_isSome (p := fun b => decide (b = nc)) h1 (by simp)
  unfold fuzzyScan
  rcases Option.isSome_iff_exists.mp h2 with ⟨j, hj⟩
  rw [hj]
  rfl

theorem fuzzyGo_greedy {hay : List Char} :
    ∀ {needle : List Char} {i : Nat} {ps : List Nat},
      fuzzyGo hay needle i = some ps → GreedyMatchSpec hay i needle ps := by
  intro needle
  induction needle with
  | nil =>
    intro i ps h
    cases h
    exact GreedyMatchSpec.nil i
  | cons nc rest ih =>
    intro i ps h
    simp only [fuzzyGo] at h
    cases hs : fuzzyScan hay nc i with
    | none => rw [hs] at h; cases h
    | some j =>
      rw [hs] at h
      rcases Option.map_eq_some'.mp h with ⟨ps2, hps2, rfl⟩
      obtain ⟨hij, hj, hmin⟩ := fuzzyScan_some hs
      exact GreedyMatchSpec.cons hij hj hmin (ih hps2)

theorem greedy_fuzzyGo {hay needle : List Char} {i : Nat} {ps : List Nat}
    (h : GreedyMatchSpec hay i needle ps) : fuzzyGo hay needle i = some ps := by
  induction h with
  | nil i => rfl
  | cons hij hj hmin hrest ih =>
    rename_i i j nc rest ps2
    have hsome : (fuzzyScan hay nc i).isSome := fuzzyScan_complete hij hj
    rcases Option.isSome_iff_exists.mp hsome with ⟨j2, hj2⟩
    obtain ⟨hij2, hjv2, hmin2⟩ := fuzzyScan_some hj2
    have hjj : j2 = j := by
      by_contra hne
      rcases Nat.lt_or_ge j2 j with hlt | hge
      · exact hmin j2 hij2 hlt hjv2
      · exact hmin2 j hij (by omega) hj
    subst hjj
    simp only [fuzzyGo, hj2, ih]
    rfl

theorem greedy_lb {hay : List Char} {i : Nat} {needle : List Char} {ps : List Nat}
    (h : GreedyMatchSpec hay i needle ps) : ∀ x ∈ ps, i ≤ x := by
  induction h with
  | nil => simp
  | cons hij hj hmin hrest ih =>
    intro x hx
    rcases List.mem_cons.mp hx with rfl | hx2
    · exact hij
    · have := ih x hx2
      omega

theorem greedy_chain {hay : List Char} {i : Nat} {needle : List Char} {ps : List Nat}
    (h : GreedyMatchSpec hay i needle ps) : List.Chain' (· < ·) ps := by
  induction h with
  | nil => exact List.chain'_nil
  | cons hij hj hmin hrest ih =>
    rename_i i j nc rest ps2
    cases ps2 with
    | nil => simp
    | cons q qs =>
      refine List.Chain'.cons ?_ ih
      have := greedy_lb hrest q (by simp)
      omega

theorem drop_split_at {hay : List Char} {i j : Nat} {nc : Char}
    (hij : i ≤ j) (hj : hay[j]? = some nc) :
    hay.drop i = (hay.drop i).take (j - i) ++ (nc :: hay.drop (j + 1)) := by
  have hjlt : j < hay.length := by
    by_contra hge
    rw [List.getElem?_eq_none (by omega)] at hj
    cases hj
  have hdj : hay.drop j = nc :: hay.drop (j + 1) := by
    rw [List.drop_eq_getElem_cons hjlt]
    have h2 := List.getElem?_eq_getElem hjlt
    rw [h2] at hj
    have h3 : hay[j] = nc := by
      injection hj
    rw [h3]
  conv_lhs => rw [← List.take_append_drop (j - i) (hay.drop i)]
  congr 1
  rw [List.drop_drop]
  first
  | (have he : j - i + i = j := by omega
     rw [he, hdj])
  | (have he : i + (j - i) = j := by omega
     rw [he, hdj])

theorem cons_sublist_split {nc : Char} {rest pre suf : List Char}
    (h : List.Sublist (nc :: rest) (pre ++ nc :: suf)) (hpre : nc ∉ pre) :
    List.Sublist rest suf := by
  induction pre with
  | nil =>
    simp only [List.nil_append] at h
    cases h with
    | cons _ h2 => exact List.sublist_of_cons_sublist h2
    | cons₂ _ h2 => exact h2
  | cons a pre2 ih =>
    simp only [List.cons_append] at h
    cases h with
    | cons _ h2 => exact ih h2 (fun hm => hpre (List.mem_cons_of_mem a hm))
    | cons₂ _ h2 => exact absurd (List.mem_cons_self _ _) hpre

theorem greedy_sublist {hay : List Char} {i : Nat} {needle : List Char} {ps : List Nat}
    (h : GreedyMatchSpec hay i needle ps) : List.Sublist needle (hay.drop i) := by
  induction h with
  | nil => exact List.nil_sublist _
  | cons hij hj hmin hrest ih =>
    rename_i i j nc rest ps2
    rw [drop_split_at hij hj]
    exact (List.Sublist.cons₂ nc ih).trans (List.sublist_append_right _ _)

theorem sublist_fuzzyGo {hay : List Char} :
    ∀ (needle : List Char) (i : Nat), List.Sublist needle (hay.drop i) →
      (fuzzyGo hay needle i).isSome := by
  intro needle
  induction needle with
  | nil => intro i _; rfl
  | cons nc rest ih =>
    intro i h
    have hmem : nc ∈ hay.drop i := h.subset (List.mem_cons_self _ _)
    rcases List.mem_iff_getElem?.mp hmem with ⟨k, hk⟩
    rw [List.getElem?_drop] at hk
    have hsome : (fuzzyScan hay nc i).isSome := fuzzyScan_complete (by omega) hk
    rcases Option.isSome_iff_exists.mp hsome with ⟨j, hj⟩
    obtain ⟨hij, hjv, hmin⟩ := fuzzyScan_some hj
    have hpre : nc ∉ (hay.drop i).take (j - i) := by
      intro hm
      rcases List.mem_iff_getElem?.mp hm with ⟨t, ht⟩
      have htn : t < j - i := by
        have := ht
        rw [List.getElem?_take] at this
        by_contra hge
        rw [if_neg (by omega)] at this
        cases this
      rw [List.getElem?_take, if_pos htn, List.getElem?_drop] at ht
      exact hmin (i + t) (by omega) (by omega) ht
    have hrest : List.Sublist rest (hay.drop (j + 1)) :=
      cons_sublist_split ((drop_split_at hij hjv) ▸ h) hpre
    have hrec := ih (j + 1) hrest
    simp only [fuzzyGo, hj]
    rcases Option.isSome_iff_exists.mp hrec with ⟨ps, hps⟩
    rw [hps]
    rfl

-- ## Claim C8: the fuzzy matcher

/-- **C8.** `fuzzy_match` is a case-insensitive greedy left-to-right
subsequence match: on the folded strings it matches each needle character
at the next occurrence strictly after the previously matched index
(`GreedyMatchSpec`, an exact characterization), the returned index list is
strictly ascending, and it returns `none` exactly when the folded needle
is not a subsequence of the folded haystack (no needle character has a
further occurrence).  In particular
`fuzzy_match "PROJ-101 User auth" "pua" = some [0, 9, 14]` and
`fuzzy_match "abc" "xyz" = none`. -/
theorem c8_fuzzy_match :
    fuzzy_match "PROJ-101 User auth".data "pua".data = some [0, 9, 14] ∧
    fuzzy_match "abc".data "xyz".data = none ∧
    (∀ (hay needle : List Char) (ps : List Nat), fuzzy_match hay needle = some ps ↔
        GreedyMatchSpec (hay.map Char.toLower) 0 (needle.map Char.toLower) ps) ∧
    (∀ (hay needle : List Char) (ps : List Nat), fuzzy_match hay needle = some ps →
        List.Chain' (· < ·) ps) ∧
    (∀ (hay needle : List Char), fuzzy_match hay needle = none ↔
        ¬ List.Sublist (needle.map Char.toLower) (hay.map Char.toLower)) := by
  refine ⟨by decide, by decide, ?_, ?_, ?_⟩
  · intro hay needle ps
    exact ⟨fuzzyGo_greedy, greedy_fuzzyGo⟩
  · intro hay needle ps h
    exact greedy_chain (fuzzyGo_greedy h)
  · intro hay needle
    constructor
    · intro h hsub
      have hs := @sublist_fuzzyGo (hay.map Char.toLower)
        (needle.map Char.toLower) 0 (by simpa using hsub)
      unfold fuzzy_match at h
      rw [h] at hs
      cases hs
    · intro hns
      cases hf : fuzzy_match hay needle with
      | none => rfl
      | some ps =>
        have hsub := greedy_sublist (fuzzyGo_greedy hf)
        rw [List.drop_zero] at hsub
        exact absurd hsub hns

/-- **C8, witness.** The characterization applied at the concrete example:
the match of `"pua"` against `"PROJ-101 User auth"` satisfies the greedy
next-occurrence spec at positions `[0, 9, 14]`. -/
theorem c8_witness :
    GreedyMatchSpec ("PROJ-101 User auth".data.map Char.toLower) 0
      ("pua".data.map Char.toLower) [0, 9, 14] :=
  (c8_fuzzy_match.2.2.1 "PROJ-101 User auth".data "pua".data [0, 9, 14]).mp
    (by decide)

-- ## Lemmas about the encoder

theorem text_to_adf_nodes_nil : text_to_adf_nodes [] = [] := by
  rw [text_to_adf_nodes]
  simp

theorem text_to_adf_nodes_noUrl {rem : List Char}
    (h : ((findSub "https://".data rem).or (findSub "http://".data rem)) = none)
    (hne : rem ≠ []) :
    text_to_adf_nodes rem = [Json.mkText rem] := by
  rw [text_to_adf_nodes]
  rw [dif_neg (by simpa [List.isEmpty_iff] using hne)]
  split
  · rename_i start heq
    rw [h] at heq
    cases heq
  · rfl

theorem sliceOpt_some {chars : List Char} {a b : Nat} (hab : a ≤ b)
    (hb : b ≤ chars.length) :
    sliceOpt chars a b = some (sliceChars chars a b) := by
  unfold sliceOpt sliceChars
  rw [if_pos ⟨hab, hb⟩]

theorem paragraphs_from_empty_mentions (chars : List Char) :
    ∀ (lines : List (List Char)) (s : Nat),
      paragraphs_from chars [] lines s =
        some (lines.map (fun l => Json.mkParagraph (text_to_adf_nodes l))) := by
  intro lines
  induction lines with
  | nil => intro s; rfl
  | cons l rest ih =>
    intro s
    simp [paragraphs_from, ih]

theorem text_to_adf_no_mentions (t : List Char) :
    text_to_adf t [] = some (Json.mkDoc ((splitLines t).map
      (fun l => Json.mkParagraph (text_to_adf_nodes l)))) := by
  unfold text_to_adf
  simp [sort_by_start, paragraphs_from_empty_mentions]

theorem isMentionNode_mkText (s : List Char) : isMentionNode (Json.mkText s) = false := rfl

theorem isMentionNode_mkInlineCard (u : List Char) :
    isMentionNode (Json.mkInlineCard u) = false := rfl

theorem isMentionNode_mkMention (id text : List Char) :
    isMentionNode (Json.mkMention id text) = true := rfl

theorem t2an_no_mention_aux :
    ∀ (n : Nat) (seg : List Char), seg.length ≤ n →
      (text_to_adf_nodes seg).countP isMentionNode = 0 := by
  intro n
  induction n with
  | zero =>
    intro seg hn
    have hseg : seg = [] := List.length_eq_zero.mp (by omega)
    subst hseg
    rw [text_to_adf_nodes_nil]
    rfl
  | succ n ih =>
    intro seg hn
    by_cases hseg : seg.isEmpty
    · have : seg = [] := List.isEmpty_iff.mp hseg
      subst this
      rw [text_to_adf_nodes_nil]
      rfl
    · rw [text_to_adf_nodes, dif_neg (by simpa using hseg)]
      split
      · rename_i start heq
        obtain ⟨r2, hdrop⟩ := url_find_head heq
        have hws : 1 ≤ firstWsIdx (seg.drop start) := by
          rw [hdrop]
          exact firstWsIdx_pos (by decide)
        have hlseg : 1 ≤ seg.length := by
          have : seg ≠ [] := by simpa [List.isEmpty_iff] using hseg
          exact List.length_pos.mpr this
        have hlen2 : ((seg.drop start).drop (firstWsIdx (seg.drop start))).length ≤ n := by
          simp only [List.length_drop]
          omega
        have hrec2 := ih _ hlen2
        rw [List.drop_drop] at hrec2
        split
        all_goals
          simp [List.countP_append, List.countP_cons, isMentionNode_mkText,
            isMentionNode_mkInlineCard, hrec2]
      · simp [List.countP_cons, isMentionNode_mkText]

theorem t2an_no_mention (seg : List Char) :
    (text_to_adf_nodes seg).countP isMentionNode = 0 :=
  t2an_no_mention_aux seg.length seg le_rfl

theorem segNodes_no_mention (seg : List Char) :
    (segNodes seg).countP isMentionNode = 0 := by
  unfold segNodes
  split
  · rfl
  · exact t2an_no_mention seg

theorem mention_line_nodes_spec (chars : List Char) (lineEnd : Nat)
    (hle : lineEnd ≤ chars.length) :
    ∀ (ms : List MentionInsert) (pos : Nat), (∀ m ∈ ms, m.start < lineEnd) →
      ∃ ns, mention_line_nodes chars lineEnd ms pos = some ns ∧
        ns.countP isMentionNode = ms.length := by
  intro ms
  induction ms with
  | nil =>
    intro pos _
    by_cases hpos : pos < lineEnd
    · refine ⟨segNodes (sliceChars chars pos lineEnd), ?_, segNodes_no_mention _⟩
      have hso := @sliceOpt_some chars pos lineEnd (Nat.le_of_lt hpos) hle
      simp only [mention_line_nodes, if_pos hpos, hso]
      rfl
    · exact ⟨[], by simp only [mention_line_nodes, if_neg hpos]; rfl, rfl⟩
  | cons m ms ih =>
    intro pos hms
    have hm : m.start < lineEnd := hms m (List.mem_cons_self _ _)
    obtain ⟨ns2, hns2, hcount2⟩ := ih (m.start + m.len)
      (fun x hx => hms x (List.mem_cons_of_mem m hx))
    by_cases hpos : pos < m.start
    · refine ⟨segNodes (sliceChars chars pos m.start) ++
        Json.mkMention m.account_id ('@' :: m.display_name) :: ns2, ?_, ?_⟩
      · have hso := @sliceOpt_some chars pos m.start (Nat.le_of_lt hpos) (by omega)
        simp only [mention_line_nodes, if_pos hpos, hso, hns2]
        rfl
      · rw [List.countP_append, List.countP_cons, segNodes_no_mention]
        simp [isMentionNode_mkMention, hcount2]
    · refine ⟨Json.mkMention m.account_id ('@' :: m.display_name) :: ns2, ?_, ?_⟩
      · simp only [mention_line_nodes, if_neg hpos, hns2]
        rfl
      · rw [List.countP_cons]
        simp [isMentionNode_mkMention, hcount2]

theorem paragraph_mention_count_mk (c : List Json) :
    paragraph_mention_count (Json.mkParagraph c) = c.countP isMentionNode := rfl

theorem lineRanges_lb :
    ∀ (lines : List (List Char)) (s : Nat), ∀ r ∈ lineRanges lines s, s ≤ r.1 := by
  intro lines
  induction lines with
  | nil => intro s r hr; cases hr
  | cons l rest ih =>
    intro s r hr
    rcases List.mem_cons.mp hr with rfl | hr2
    · exact Nat.le_refl s
    · have := ih (s + l.length + 1) r hr2
      omega

theorem countP_or_disjoint {α : Type} (p q : α → Bool) :
    ∀ (l : List α), (∀ a ∈ l, ¬ (p a = true ∧ q a = true)) →
      l.countP (fun a => p a || q a) = l.countP p + l.countP q := by
  intro l
  induction l with
  | nil => intro _; rfl
  | cons a as ih =>
    intro h
    have hrest := ih (fun x hx => h x (List.mem_cons_of_mem a hx))
    have ha := h a (List.mem_cons_self _ _)
    rw [List.countP_cons, List.countP_cons, List.countP_cons, hrest]
    by_cases hp : p a = true <;> by_cases hq : q a = true <;>
      simp [hp, hq] at ha ⊢ <;> omega

theorem any_range_cons (m : MentionInsert) (a b : Nat) (rs : List (Nat × Nat)) :
    (((a, b) :: rs).any (fun r => decide (r.1 ≤ m.start) && decide (m.start < r.2))) =
      ((decide (a ≤ m.start) && decide (m.start < b)) ||
        rs.any (fun r => decide (r.1 ≤ m.start) && decide (m.start < r.2))) := by
  simp [List.any_cons]

theorem paragraphs_from_spec (chars : List Char) (sorted : List MentionInsert) :
    ∀ (lines : List (List Char)) (lineStart : Nat),
      (lineStart + sumLen lines ≤ chars.length ∨ lines = []) →
      ∃ ps, paragraphs_from chars sorted lines lineStart = some ps ∧
        ps.length = lines.length ∧
        (∀ p ∈ ps, ∃ c, p = Json.mkParagraph c) ∧
        (ps.map paragraph_mention_count).sum =
          sorted.countP (fun m => (lineRanges lines lineStart).any
            (fun r => decide (r.1 ≤ m.start) && decide (m.start < r.2))) := by
  intro lines
  induction lines with
  | nil =>
    intro lineStart _
    refine ⟨[], rfl, rfl, by simp, ?_⟩
    simp [lineRanges, List.countP_eq_zero]
  | cons line rest ih =>
    intro lineStart hfit
    rcases hfit with hfit | hfit
    swap
    · cases hfit
    have hle : lineStart + line.length ≤ chars.length := by
      have : line.length ≤ sumLen (line :: rest) := by
        cases rest with
        | nil => simp [sumLen]
        | cons r rs => rw [sumLen_cons _ _ (by simp)]; omega
      omega
    have hfit2 : (lineStart + line.length + 1) + sumLen rest ≤ chars.length ∨ rest = [] := by
      cases rest with
      | nil => exact Or.inr rfl
      | cons r rs =>
        left
        rw [sumLen_cons _ _ (by simp)] at hfit
        omega
    obtain ⟨ps2, hps2, hlen2, hpar2, hcount2⟩ := ih (lineStart + line.length + 1) hfit2
    have hcount_common : ∀ content : List Json,
        content.countP isMentionNode =
          (sorted.filter (fun m => decide (lineStart ≤ m.start) &&
            decide (m.start < lineStart + line.length))).length →
        (List.map paragraph_mention_count (Json.mkParagraph content :: ps2)).sum =
          sorted.countP (fun m => (lineRanges (line :: rest) lineStart).any
            (fun r => decide (r.1 ≤ m.start) && decide (m.start < r.2))) := by
      intro content hcc
      have hdisj : ∀ m ∈ sorted,
          ¬ ((decide (lineStart ≤ m.start) && decide (m.start < lineStart + line.length)) = true ∧
            ((lineRanges rest (lineStart + line.length + 1)).any
              (fun r => decide (r.1 ≤ m.start) && decide (m.start < r.2))) = true) := by
        rintro m _ ⟨h1, h2⟩
        simp only [Bool.and_eq_true, decide_eq_true_eq] at h1
        rcases List.any_eq_true.mp h2 with ⟨r, hr, hrr⟩
        simp only [Bool.and_eq_true, decide_eq_true_eq] at hrr
        have := lineRanges_lb rest (lineStart + line.length + 1) r hr
        omega
      have hsplit := countP_or_disjoint
        (fun m => decide (lineStart ≤ m.start) && decide (m.start < lineStart + line.length))
        (fun m => (lineRanges rest (lineStart + line.length + 1)).any
          (fun r => decide (r.1 ≤ m.start) && decide (m.start < r.2)))
        sorted hdisj
      simp only [List.map_cons, List.sum_cons, paragraph_mention_count_mk, hcc, hcount2,
        lineRanges]
      simp only [any_range_cons]
      rw [← List.countP_eq_length_filter, hsplit]
    by_cases hLMe : (sorted.filter (fun m => decide (lineStart ≤ m.start) &&
        decide (m.start < lineStart + line.length))).isEmpty
    · refine ⟨Json.mkParagraph (text_to_adf_nodes line) :: ps2, ?_, by simp [hlen2], ?_, ?_⟩
      · simp only [paragraphs_from]
        rw [if_pos hLMe]
        simp only [Option.pure_def, Option.some_bind]
        rw [hps2]
        rfl
      · intro p hp
        rcases List.mem_cons.mp hp with rfl | hp2
        · exact ⟨text_to_adf_nodes line, rfl⟩
        · exact hpar2 p hp2
      · refine hcount_common _ ?_
        rw [t2an_no_mention, List.isEmpty_iff.mp hLMe]
        rfl
    · obtain ⟨ns, hns, hcn⟩ := mention_line_nodes_spec chars (lineStart + line.length)
        (by omega)
        (sorted.filter (fun m => decide (lineStart ≤ m.start) &&
          decide (m.start < lineStart + line.length)))
        lineStart
        (fun m hm => by
          have := List.of_mem_filter hm
          simp only [Bool.and_eq_true, decide_eq_true_eq] at this
          exact this.2)
      have hne : ¬ ns.isEmpty := by
        intro hempty
        rw [List.isEmpty_iff.mp hempty] at hcn
        have h0 : (sorted.filter (fun m => decide (lineStart ≤ m.start) &&
            decide (m.start < lineStart + line.length))) = [] :=
          List.length_eq_zero.mp hcn.symm
        exact hLMe (by rw [h0]; rfl)
      refine ⟨Json.mkParagraph ns :: ps2, ?_, by simp [hlen2], ?_, ?_⟩
      · simp only [paragraphs_from]
        rw [if_neg hLMe, hns]
        simp [hne, hps2]
      · intro p hp
        rcases List.mem_cons.mp hp with rfl | hp2
        · exact ⟨ns, rfl⟩
        · exact hpar2 p hp2
      · exact hcount_common ns hcn

-- ## Claim C9: document shape — one paragraph per line

/-- **C9.** For every input text and mention list, the encoder returns a
`{type: "doc", version: 1}` node whose content is one `paragraph` node per
`'\n'`-separated line of the text in input order: the paragraph count is
the number of `'\n'` characters plus one (so a text ending in `'\n'` gets
a final empty paragraph), and every content entry is a paragraph node. -/
theorem c9_doc_shape (text : List Char) (mentions : List MentionInsert) :
    ∃ ps, text_to_adf text mentions = some (Json.mkDoc ps) ∧
      ps.length = text.count '\n' + 1 ∧
      ∀ p ∈ ps, ∃ c, p = Json.mkParagraph c := by
  obtain ⟨ps, hps, hlen, hpar, _⟩ := paragraphs_from_spec text (sort_by_start mentions)
    (splitLines text) 0 (Or.inl (by rw [sumLen_splitLines]; omega))
  refine ⟨ps, ?_, ?_, hpar⟩
  · unfold text_to_adf
    simp only [hps]
    rfl
  · rw [hlen, splitLines_length]

-- ## Claim C3: totality of the encoder on malformed mention input

/-- **C3, counterexample.** A span spilling across a line boundary
(`start 0, len 4` over `"ab\ncd"`, whose range covers the newline) is not
dropped: the encoder emits its mention node on the line containing its
start, and the characters it overlaps past the line end are swallowed on
that line (the second line re-emits its own text). -/
theorem c3_counterexample :
    text_to_adf "ab\ncd".data [⟨0, 4, "u".data, "X".data⟩] =
      some (Json.mkDoc [Json.mkParagraph [Json.mkMention "u".data ('@' :: "X".data)],
        Json.mkParagraph [Json.mkText "cd".data]]) ∧
    doc_mention_count (Json.mkDoc [Json.mkParagraph
        [Json.mkMention "u".data ('@' :: "X".data)],
      Json.mkParagraph [Json.mkText "cd".data]]) = 1 := by
  constructor
  · have hcd : text_to_adf_nodes "cd".data = [Json.mkText "cd".data] :=
      text_to_adf_nodes_noUrl (by rfl) (by decide)
    have hsplit : splitLines "ab\ncd".data = ["ab".data, "cd".data] := by rfl
    unfold text_to_adf
    rw [hsplit]
    simp [sort_by_start, insertByStart, paragraphs_from, mention_line_nodes,
      segNodes, sliceOpt, sliceChars, hcd]
  · rfl

/-- **C3, amended.** The encoder is total on malformed mention input: for
every text and list of mention spans — including spans whose `start` or
`start+len` lies outside the buffer, spans spilling across a line boundary,
and overlapping spans — it returns a document without panicking (every
Rust slice it takes is in bounds).  A span whose `start` lies outside every
line's `[lineStart, lineEnd)` range (in particular out-of-range starts) is
silently skipped; a span whose `start` lies in some line is emitted as a
mention node on that line even if `start+len` spills past the line or the
buffer: the emitted mention-node count is exactly the number of spans whose
start falls in some line. -/
theorem c3_encoder_total (text : List Char) (mentions : List MentionInsert) :
    ∃ d, text_to_adf text mentions = some d ∧
      doc_mention_count d = mentions.countP (span_in_some_line text) := by
  obtain ⟨ps, hps, _, _, hcount⟩ := paragraphs_from_spec text (sort_by_start mentions)
    (splitLines text) 0 (Or.inl (by rw [sumLen_splitLines]; omega))
  refine ⟨Json.mkDoc ps, ?_, ?_⟩
  · unfold text_to_adf
    simp only [hps]
    rfl
  · have hdc : doc_mention_count (Json.mkDoc ps) =
        (ps.map paragraph_mention_count).sum := rfl
    rw [hdc, hcount, (sort_by_start_perm mentions).countP_eq]
    rfl

-- ## Claim C2: empty lines and the empty-text fallback

/-- **C2 (code bug).** The claim (and the spec) require an empty line to
yield a paragraph with a single empty `Text` child, never zero content
nodes.  The code's fallback `if nodes.is_empty() { vec![text ""] }` sits
only in the mention branch — where it is unreachable, since that branch
always pushes at least one mention node — while the no-mention branch
returns `text_to_adf_nodes("")` = `[]` unguarded: the empty middle line of
`"a\n\nb"` encodes to a paragraph with zero content nodes, not to a
paragraph with one empty text child. -/
theorem c2_empty_line_paragraph :
    text_to_adf "a\n\nb".data [] =
      some (Json.mkDoc [Json.mkParagraph [Json.mkText "a".data], Json.mkParagraph [],
        Json.mkParagraph [Json.mkText "b".data]]) ∧
    Json.mkParagraph ([] : List Json) ≠ Json.mkParagraph [Json.mkText []] := by
  constructor
  · have hsplit : splitLines "a\n\nb".data = ["a".data, [], "b".data] := by rfl
    have ha : text_to_adf_nodes "a".data = [Json.mkText "a".data] :=
      text_to_adf_nodes_noUrl (by rfl) (by decide)
    have hb : text_to_adf_nodes "b".data = [Json.mkText "b".data] :=
      text_to_adf_nodes_noUrl (by rfl) (by decide)
    rw [text_to_adf_no_mentions, hsplit]
    simp [ha, hb, text_to_adf_nodes_nil]
  · simp [Json.mkParagraph]

-- ## Lemmas about the decoder on encoder-produced nodes

theorem adf_to_text_mkText (s : List Char) : adf_to_text (Json.mkText s) = s := by
  rw [adf_to_text]
  simp [nodeType, Json.mkText, Json.get, getField, Json.asStr, format_text_with_marks]

theorem adf_to_text_mkInlineCard (u : List Char) :
    adf_to_text (Json.mkInlineCard u) = u := by
  rw [adf_to_text]
  simp [nodeType, Json.mkInlineCard, Json.get, getField, Json.asStr]

theorem adf_to_text_mkParagraph (ns : List Json) :
    adf_to_text (Json.mkParagraph ns) = (ns.map adf_to_text).flatten ++ ['\n'] := by
  rw [adf_to_text]
  simp only [nodeType, Json.mkParagraph, Json.get, getField, Json.asStr]
  rw [adf_children_text]
  simp [Json.contentArr, Json.mkParagraph, Json.get, getField, Json.asArr,
    List.attach_map_val]

theorem adf_to_text_mkDoc (ps : List Json) :
    adf_to_text (Json.mkDoc ps) = (ps.map adf_to_text).flatten := by
  rw [adf_to_text]
  simp only [nodeType, Json.mkDoc, Json.get, getField, Json.asStr]
  rw [adf_children_text]
  simp [Json.contentArr, Json.mkDoc, Json.get, getField, Json.asArr,
    List.attach_map_val]

theorem t2an_decode_aux :
    ∀ (n : Nat) (seg : List Char), seg.length ≤ n →
      ((text_to_adf_nodes seg).map adf_to_text).flatten = seg := by
  intro n
  induction n with
  | zero =>
    intro seg hn
    have hnil : seg = [] := List.length_eq_zero.mp (by omega)
    subst hnil
    rw [text_to_adf_nodes_nil]
    rfl
  | succ n ih =>
    intro seg hn
    by_cases hseg : seg.isEmpty
    · have hnil : seg = [] := List.isEmpty_iff.mp hseg
      subst hnil
      rw [text_to_adf_nodes_nil]
      rfl
    · rw [text_to_adf_nodes, dif_neg (by simpa using hseg)]
      split
      · rename_i start heq
        obtain ⟨r2, hdrop⟩ := url_find_head heq
        have hws : 1 ≤ firstWsIdx (seg.drop start) := by
          rw [hdrop]
          exact firstWsIdx_pos (by decide)
        have hlseg : 1 ≤ seg.length :=
          List.length_pos.mpr (by simpa [List.isEmpty_iff] using hseg)
        have hlen2 : ((seg.drop start).drop (firstWsIdx (seg.drop start))).length ≤ n := by
          simp only [List.length_drop]
          omega
        have hrec := ih _ hlen2
        by_cases h0 : 0 < start
        · rw [if_pos h0]
          simp only [List.map_append, List.flatten_append, List.map_cons,
            List.flatten_cons, List.map_nil, List.flatten_nil,
            adf_to_text_mkText, adf_to_text_mkInlineCard]
          rw [hrec, List.take_append_drop, List.append_nil, List.take_append_drop]
        · rw [if_neg h0]
          have hstart : start = 0 := by omega
          subst hstart
          simp only [List.map_append, List.map_nil, List.flatten_append,
            List.flatten_nil, List.nil_append, List.map_cons, List.flatten_cons,
            adf_to_text_mkInlineCard]
          rw [hrec, List.take_append_drop, List.drop_zero]
      · simp [adf_to_text_mkText]

theorem t2an_decode (seg : List Char) :
    ((text_to_adf_nodes seg).map adf_to_text).flatten = seg :=
  t2an_decode_aux seg.length seg le_rfl

-- ## Claim C6: round-trip through decode then encode

/-- **C6.** Round-trip: re-encoding the decoded text of any document tree
(with an empty mention list) produces a `doc` of `paragraph`s that is
equivalent to the original modulo whitespace normalization at line
boundaries, formalized as: the re-encoded document decodes to exactly the
original decoded text plus one trailing line terminator (each line —
including heading/list/quote markup flattened into its text — comes back
as one paragraph contributing `line + "\n"`).  This holds for every
document value, in particular every tree built only from the supported
node and mark set. -/
theorem c6_roundtrip (d : Json) :
    ∃ e, text_to_adf (adf_to_text d) [] = some e ∧
      adf_to_text e = adf_to_text d ++ ['\n'] := by
  refine ⟨_, text_to_adf_no_mentions (adf_to_text d), ?_⟩
  rw [adf_to_text_mkDoc, List.map_map]
  have hmap : ((splitLines (adf_to_text d)).map
      (adf_to_text ∘ fun l => Json.mkParagraph (text_to_adf_nodes l))) =
      (splitLines (adf_to_text d)).map (· ++ ['\n']) := by
    apply List.map_congr_left
    intro l _
    simp only [Function.comp_apply]
    rw [adf_to_text_mkParagraph, t2an_decode]
  rw [hmap, splitLines_join]

-- ## Lemmas about the inline renderer

theorem take_firstWsIdx (l : List Char) :
    l.take (firstWsIdx l) = l.takeWhile (fun c => ! c.isWhitespace) := by
  induction l with
  | nil => rfl
  | cons c rest ih =>
    by_cases hc : c.isWhitespace
    · have h1 : firstWsIdx (c :: rest) = 0 := by
        simp [firstWsIdx, findIdxP, hc]
      rw [h1]
      simp [List.takeWhile_cons, hc]
    · cases hf : findIdxP (fun c => c.isWhitespace) rest with
      | some j =>
        have h1 : firstWsIdx (c :: rest) = j + 1 := by
          simp [firstWsIdx, findIdxP, hc, hf]
        have h2 : firstWsIdx rest = j := by
          simp [firstWsIdx, hf]
        rw [h1, List.take_succ_cons, List.takeWhile_cons]
        simp only [hc, Bool.not_false, if_pos]
        rw [← h2, ih]
      | none =>
        have h1 : firstWsIdx (c :: rest) = rest.length + 1 := by
          simp [firstWsIdx, findIdxP, hc, hf]
        have h2 : firstWsIdx rest = rest.length := by
          simp [firstWsIdx, hf]
        rw [h1, List.take_succ_cons, List.takeWhile_cons]
        simp only [hc, Bool.not_false, if_pos]
        rw [← h2, ih]

theorem pim_go_url_step {remaining : List Char} {pos : Nat}
    (hrem : remaining ≠ [])
    (hn : minPairFst (candidatesOf remaining) = some (pos, Marker.mUrl)) :
    pim_go remaining = (if 0 < pos then [⟨remaining.take pos, SpanStyle.body⟩] else []) ++
      (urlBranch remaining pos).1 :: pim_go ((urlBranch remaining pos).2) := by
  rw [pim_go, dif_neg (by simpa [List.isEmpty_iff] using hrem)]
  split
  · rename_i heq
    rw [hn] at heq
    cases heq
  · rename_i pm heq
    rw [hn] at heq
    cases heq
    rfl

theorem pim_go_none_step {remaining : List Char} (hrem : remaining ≠ [])
    (hn : minPairFst (candidatesOf remaining) = none) :
    pim_go remaining = [⟨remaining, SpanStyle.body⟩] := by
  rw [pim_go, dif_neg (by simpa [List.isEmpty_iff] using hrem)]
  split
  · rfl
  · rename_i pm heq
    rw [hn] at heq
    cases heq

-- ## Claim C7: bare-URL parsing

/-- **C7, counterexample.** Parsing `"see https://x.com. ok"`: the bare-URL
token (the non-whitespace run starting at the URL, third conjunct) is
`"https://x.com."`, but the recognized fragment displays the **stripped**
URL `"https://x.com"` — not the full token as the claim states — and the
trailing `'.'` is re-scanned into the following plain-text span `". ok"`.
The line's click target (the fragment's content) is the stripped URL. -/
theorem c7_counterexample :
    parse_inline_markdown "see https://x.com. ok".data =
      [⟨"see ".data, SpanStyle.body⟩, ⟨"https://x.com".data, SpanStyle.linkStyle⟩,
        ⟨". ok".data, SpanStyle.body⟩] ∧
    line_link (parse_inline_markdown "see https://x.com. ok".data) =
      some "https://x.com".data ∧
    ("see https://x.com. ok".data.drop 4).takeWhile (fun c => ! c.isWhitespace) =
      "https://x.com.".data ∧
    "https://x.com".data ≠ "https://x.com.".data := by
  have hb : urlBranch "see https://x.com. ok".data 4 =
      (⟨"https://x.com".data, SpanStyle.linkStyle⟩, ". ok".data) := by rfl
  have h2 : pim_go ". ok".data = [⟨". ok".data, SpanStyle.body⟩] :=
    pim_go_none_step (by decide) (by rfl)
  have h1 : pim_go "see https://x.com. ok".data =
      [⟨"see ".data, SpanStyle.body⟩, ⟨"https://x.com".data, SpanStyle.linkStyle⟩,
        ⟨". ok".data, SpanStyle.body⟩] := by
    rw [pim_go_url_step (by decide) (by rfl), hb, h2]
    rfl
  have hp : parse_inline_markdown "see https://x.com. ok".data =
      [⟨"see ".data, SpanStyle.body⟩, ⟨"https://x.com".data, SpanStyle.linkStyle⟩,
        ⟨". ok".data, SpanStyle.body⟩] := by
    rw [parse_inline_markdown, if_neg (by decide)]
    simp only [h1]
    rfl
  refine ⟨hp, ?_, by decide, by decide⟩
  rw [hp]
  rfl

/-- **C7, amended.** In the bare-URL arm of the inline parser, the token is
the maximal non-whitespace run starting at the match (it ends at the first
whitespace character); trailing punctuation among `. , ) ; : ! ?` is
stripped from it, and the **stripped** URL is both the displayed text of
the recognized fragment and (being the fragment's content) the link
target; scanning resumes immediately after the stripped URL, so the
trailing punctuation is re-emitted as following plain text rather than
shown inside the fragment.  The last conjunct ties the arm into the
scanner: whenever the race selects a bare URL at position `pos`, the
parser emits exactly the text before `pos` and this fragment, and
continues on the remainder. -/
theorem c7_bare_url (remaining : List Char) (pos : Nat) :
    (urlBranch remaining pos).1 = ⟨trimEndMatches isUrlTrailPunct
        ((remaining.drop pos).takeWhile (fun c => ! c.isWhitespace)),
      SpanStyle.linkStyle⟩ ∧
    (urlBranch remaining pos).2 = remaining.drop (pos + (trimEndMatches isUrlTrailPunct
        ((remaining.drop pos).takeWhile (fun c => ! c.isWhitespace))).length) ∧
    (remaining ≠ [] → minPairFst (candidatesOf remaining) = some (pos, Marker.mUrl) →
      pim_go remaining =
        (if 0 < pos then [⟨remaining.take pos, SpanStyle.body⟩] else []) ++
          (urlBranch remaining pos).1 :: pim_go ((urlBranch remaining pos).2)) := by
  refine ⟨?_, ?_, fun hrem hn => pim_go_url_step hrem hn⟩
  · show RSpan.mk (trimEndMatches isUrlTrailPunct
      ((remaining.drop pos).take (firstWsIdx (remaining.drop pos)))) SpanStyle.linkStyle = _
    rw [take_firstWsIdx]
  · show remaining.drop (pos + (trimEndMatches isUrlTrailPunct
      ((remaining.drop pos).take (firstWsIdx (remaining.drop pos)))).length) = _
    rw [take_firstWsIdx]

/-- **C7, witness.** The amended theorem applied at the counterexample
input: the scanner step at position 4 of `"see https://x.com. ok"`. -/
theorem c7_witness :
    pim_go "see https://x.com. ok".data =
      (if 0 < 4 then [⟨"see https://x.com. ok".data.take 4, SpanStyle.body⟩] else []) ++
        (urlBranch "see https://x.com. ok".data 4).1 ::
          pim_go ((urlBranch "see https://x.com. ok".data 4).2) :=
  (c7_bare_url "see https://x.com. ok".data 4).2.2 (by decide) (by rfl)

-- ## Lemmas about the editing state machine

theorem input_insert_len (s : List Char) (cursor : Nat) (c : Char) :
    (input_insert s cursor c).1.length = s.length + 1 ∧
    (input_insert s cursor c).2 = cursor + 1 := by
  unfold input_insert char_index_pos
  refine ⟨?_, rfl⟩
  simp [List.length_take, List.length_drop]
  omega

theorem input_backspace_le {s : List Char} {cursor : Nat} (h : cursor ≤ s.length) :
    (input_backspace s cursor).2 ≤ (input_backspace s cursor).1.length := by
  unfold input_backspace char_index_pos
  split
  · rename_i hpos
    show cursor - 1 ≤ (s.eraseIdx (min (cursor - 1) s.length)).length
    have hmin : min (cursor - 1) s.length = cursor - 1 := by omega
    rw [hmin, List.length_eraseIdx_of_lt (by omega)]
    omega
  · simpa using h

theorem input_delete_le {s : List Char} {cursor : Nat} (h : cursor ≤ s.length) :
    (input_delete s cursor).2 ≤ (input_delete s cursor).1.length := by
  unfold input_delete char_index_pos
  split
  · rename_i hlt
    show cursor ≤ (s.eraseIdx (min cursor s.length)).length
    rw [Nat.min_eq_left (by omega), List.length_eraseIdx_of_lt hlt]
    omega
  · simpa using h

theorem EditorInv_of_fields {s s2 : EditorState}
    (hbuf : s2.comment_input = s.comment_input) (hcur : s2.cursor_pos = s.cursor_pos)
    (hed : s2.editing = s.editing)
    (hm : ∀ m2, s2.mention = some m2 →
      ∃ m, s.mention = some m ∧ m2.trigger_pos = m.trigger_pos)
    (h : EditorInv s) : EditorInv s2 := by
  obtain ⟨h1, h2⟩ := h
  refine ⟨by rw [hbuf, hcur, hed]; exact h1, ?_⟩
  intro m2 hm2
  obtain ⟨m, hms, htr⟩ := hm m2 hm2
  have h3 := h2 m hms
  rw [hbuf, hcur, htr]
  exact h3

theorem inv_mention_move_up {s : EditorState} (h : EditorInv s) :
    EditorInv (mention_move_up s) := by
  unfold mention_move_up
  split
  · rename_i m hm
    split
    · refine EditorInv_of_fields (s := s) rfl rfl rfl ?_ h
      intro m2 hm2
      simp only [Option.some.injEq] at hm2
      exact ⟨m, hm, by rw [← hm2]⟩
    · exact h
  · exact h

theorem inv_mention_move_down {s : EditorState} (h : EditorInv s) :
    EditorInv (mention_move_down s) := by
  unfold mention_move_down
  split
  · rename_i m hm
    split
    · refine EditorInv_of_fields (s := s) rfl rfl rfl ?_ h
      intro m2 hm2
      simp only [Option.some.injEq] at hm2
      exact ⟨m, hm, by rw [← hm2]⟩
    · exact h
  · exact h

theorem inv_cancel_mention {s : EditorState} (h : EditorInv s) :
    EditorInv (cancel_mention s) := by
  obtain ⟨h1, _⟩ := h
  exact ⟨h1, by intro m2 hm2; cases hm2⟩

theorem inv_update_mention_query {s : EditorState} (h : EditorInv s) :
    EditorInv (update_mention_query s) := by
  unfold update_mention_query
  split
  · rename_i m hm
    split
    · refine EditorInv_of_fields (s := s) rfl rfl rfl ?_ h
      intro m2 hm2
      simp only [Option.some.injEq] at hm2
      exact ⟨m, hm, by rw [← hm2]⟩
    · exact h
  · exact h

theorem inv_fetch_mention_candidates {s : EditorState}
    (response : Option (List JiraUserM)) (h : EditorInv s) :
    EditorInv (fetch_mention_candidates s response) := by
  unfold fetch_mention_candidates
  split
  · exact h
  · rename_i m hm
    split
    · refine EditorInv_of_fields (s := s) rfl rfl rfl ?_ h
      intro m2 hm2
      simp only [Option.some.injEq] at hm2
      exact ⟨m, hm, by rw [← hm2]⟩
    · split
      · exact h
      · cases response with
        | some users =>
          refine EditorInv_of_fields (s := s) rfl rfl rfl ?_ h
          intro m2 hm2
          simp only [Option.some.injEq] at hm2
          exact ⟨m, hm, by rw [← hm2]⟩
        | none =>
          refine EditorInv_of_fields (s := s) rfl rfl rfl ?_ h
          intro m2 hm2
          exact ⟨m2, hm2, rfl⟩

theorem inv_select_mention {s : EditorState} (h : EditorInv s) :
    EditorInv (select_mention s) := by
  obtain ⟨h1, h2⟩ := h
  unfold select_mention
  split
  · exact ⟨h1, h2⟩
  · rename_i m hm
    split
    · exact ⟨h1, h2⟩
    · rename_i cand hc
      obtain ⟨htr1, htr2, hcl⟩ := h2 m hm
      refine ⟨?_, ?_⟩
      · intro _
        simp only [List.length_append, List.length_take, List.length_cons,
          List.length_drop]
        omega
      · intro m2 hm2
        cases hm2

theorem inv_cancel_comment_action {s : EditorState} :
    EditorInv (cancel_comment_action s) := by
  refine ⟨?_, ?_⟩
  · intro hed
    cases hed
  · intro m2 hm2
    cases hm2

theorem inv_submit_comment {s : EditorState} (netOk : Bool)
    (hm : s.mention = none) : EditorInv (submit_comment s netOk) := by
  unfold submit_comment
  split
  · exact inv_cancel_comment_action
  · split
    · exact ⟨(by intro hed; cases hed), (by intro m2 hm2; cases hm2)⟩
    · exact ⟨(by intro hed; cases hed), (by intro m2 hm2; rw [hm] at hm2; cases hm2)⟩

-- ## Claim C10: the mention trigger position never underflows

/-- **C10.** Whenever the mention-composing state exists, its `trigger_pos`
is at least 1 (the triggering `'@'` occupies `trigger_pos - 1`): the
invariant `EditorInv` holds in the states that enter the comment-editing
modes, is preserved by every key event of the editing loop, and implies
that in any state with an active overlay the `trigger_pos - 1` subtraction
does not underflow (`(t-1)+1 = t`) and all of `select_mention`'s slice
bounds hold (`trigger_pos - 1 ≤ cursor_pos ≤ buffer length`) — so
`select_mention` cannot panic. -/
theorem c10_trigger_pos_invariant :
    (∀ s : EditorState, EditorInv (start_adding_comment s)) ∧
    (∀ (s : EditorState) (body : List Char), EditorInv (start_editing_comment s body)) ∧
    (∀ (s : EditorState) (k : Key) (lookup : Option (List JiraUserM)) (netOk : Bool),
      EditorInv s → EditorInv (comment_edit_step s k lookup netOk)) ∧
    (∀ (s : EditorState) (m : MentionState), EditorInv s → s.mention = some m →
      1 ≤ m.trigger_pos ∧ (m.trigger_pos - 1) + 1 = m.trigger_pos ∧
      m.trigger_pos - 1 ≤ s.comment_input.length ∧
      m.trigger_pos - 1 ≤ s.cursor_pos ∧ s.cursor_pos ≤ s.comment_input.length) := by
  refine ⟨?_, ?_, ?_, ?_⟩
  · intro s
    exact ⟨fun _ => Nat.zero_le _, fun m2 hm2 => Option.noConfusion hm2⟩
  · intro s body
    exact ⟨fun _ => Nat.le_refl _, fun m2 hm2 => Option.noConfusion hm2⟩
  · intro s k lookup netOk hInv
    obtain ⟨hcur, hmen⟩ := hInv
    unfold comment_edit_step
    split
    · exact ⟨hcur, hmen⟩
    · rename_i hedit
      have hed : s.editing = true := not_not.mp hedit
      have hclen : s.cursor_pos ≤ s.comment_input.length := hcur hed
      split
      · rename_i mst hm
        have hmst := hmen mst hm
        split
        · exact inv_mention_move_up ⟨hcur, hmen⟩
        · exact inv_mention_move_down ⟨hcur, hmen⟩
        · exact inv_select_mention ⟨hcur, hmen⟩
        · exact inv_select_mention ⟨hcur, hmen⟩
        · exact inv_cancel_mention ⟨hcur, hmen⟩
        · have htrig : (s.mention.map (fun m => m.trigger_pos)).getD 0 =
              mst.trigger_pos := by
            rw [hm]; rfl
          rw [htrig]
          show EditorInv
            (if (input_backspace s.comment_input s.cursor_pos).2 < mst.trigger_pos then
              cancel_mention { s with
                comment_input := (input_backspace s.comment_input s.cursor_pos).1,
                cursor_pos := (input_backspace s.comment_input s.cursor_pos).2 }
            else
              fetch_mention_candidates (update_mention_query { s with
                comment_input := (input_backspace s.comment_input s.cursor_pos).1,
                cursor_pos := (input_backspace s.comment_input s.cursor_pos).2 }) lookup)
          split
          · refine ⟨?_, ?_⟩
            · intro _
              show (input_backspace s.comment_input s.cursor_pos).2 ≤
                (input_backspace s.comment_input s.cursor_pos).1.length
              exact input_backspace_le hmst.2.2
            · intro m2 hm2
              cases hm2
          · rename_i hnotlt
            apply inv_fetch_mention_candidates
            apply inv_update_mention_query
            refine ⟨?_, ?_⟩
            · intro _
              show (input_backspace s.comment_input s.cursor_pos).2 ≤
                (input_backspace s.comment_input s.cursor_pos).1.length
              exact input_backspace_le hmst.2.2
            · intro m2 hm2
              have hmm : mst = m2 := Option.some.inj (hm.symm.trans hm2)
              subst hmm
              show 1 ≤ mst.trigger_pos ∧
                mst.trigger_pos ≤ (input_backspace s.comment_input s.cursor_pos).2 ∧
                (input_backspace s.comment_input s.cursor_pos).2 ≤
                  (input_backspace s.comment_input s.cursor_pos).1.length
              exact ⟨hmst.1, by omega, input_backspace_le hmst.2.2⟩
        · rename_i c
          split
          · refine ⟨?_, ?_⟩
            · intro _
              show (input_insert s.comment_input s.cursor_pos ' ').2 ≤
                (input_insert s.comment_input s.cursor_pos ' ').1.length
              have hi2 := input_insert_len s.comment_input s.cursor_pos ' '
              rw [hi2.1, hi2.2]
              omega
            · intro m2 hm2
              cases hm2
          · apply inv_fetch_mention_candidates
            apply inv_update_mention_query
            refine ⟨?_, ?_⟩
            · intro _
              show (input_insert s.comment_input s.cursor_pos c).2 ≤
                (input_insert s.comment_input s.cursor_pos c).1.length
              have hi := input_insert_len s.comment_input s.cursor_pos c
              rw [hi.1, hi.2]
              omega
            · intro m2 hm2
              have hmm : mst = m2 := Option.some.inj (hm.symm.trans hm2)
              subst hmm
              show 1 ≤ mst.trigger_pos ∧
                mst.trigger_pos ≤ (input_insert s.comment_input s.cursor_pos c).2 ∧
                (input_insert s.comment_input s.cursor_pos c).2 ≤
                  (input_insert s.comment_input s.cursor_pos c).1.length
              have hi := input_insert_len s.comment_input s.cursor_pos c
              rw [hi.1, hi.2]
              exact ⟨hmst.1, by have h2 := hmst.2.1; omega,
                by have h3 := hmst.2.2; omega⟩
        all_goals exact ⟨hcur, hmen⟩
      · rename_i hm
        split
        · exact inv_submit_comment netOk hm
        · exact inv_cancel_comment_action
        · split
          · refine ⟨?_, ?_⟩
            · intro _
              show s.cursor_pos - 1 ≤ s.comment_input.length
              omega
            · intro m2 hm2
              exact Option.noConfusion (hm.symm.trans hm2)
          · exact ⟨hcur, hmen⟩
        · split
          · rename_i hlt
            refine ⟨?_, ?_⟩
            · intro _
              show s.cursor_pos + 1 ≤ s.comment_input.length
              omega
            · intro m2 hm2
              exact Option.noConfusion (hm.symm.trans hm2)
          · exact ⟨hcur, hmen⟩
        · exact ⟨fun _ => Nat.zero_le _,
            fun m2 hm2 => Option.noConfusion (hm.symm.trans hm2)⟩
        · exact ⟨fun _ => Nat.le_refl _,
            fun m2 hm2 => Option.noConfusion (hm.symm.trans hm2)⟩
        · refine ⟨?_, ?_⟩
          · intro _
            show (input_backspace s.comment_input s.cursor_pos).2 ≤
              (input_backspace s.comment_input s.cursor_pos).1.length
            exact input_backspace_le hclen
          · intro m2 hm2
            exact Option.noConfusion (hm.symm.trans hm2)
        · refine ⟨?_, ?_⟩
          · intro _
            show (input_delete s.comment_input s.cursor_pos).2 ≤
              (input_delete s.comment_input s.cursor_pos).1.length
            exact input_delete_le hclen
          · intro m2 hm2
            exact Option.noConfusion (hm.symm.trans hm2)
        · rename_i c
          split
          · refine ⟨?_, ?_⟩
            · intro _
              show (input_insert s.comment_input s.cursor_pos '@').2 ≤
                (input_insert s.comment_input s.cursor_pos '@').1.length
              have hi2 := input_insert_len s.comment_input s.cursor_pos '@'
              rw [hi2.1, hi2.2]
              omega
            · intro m2 hm2
              have hmm := Option.some.inj hm2
              rw [← hmm]
              show 1 ≤ (input_insert s.comment_input s.cursor_pos '@').2 ∧
                (input_insert s.comment_input s.cursor_pos '@').2 ≤
                  (input_insert s.comment_input s.cursor_pos '@').2 ∧
                (input_insert s.comment_input s.cursor_pos '@').2 ≤
                  (input_insert s.comment_input s.cursor_pos '@').1.length
              have hi2 := input_insert_len s.comment_input s.cursor_pos '@'
              rw [hi2.1, hi2.2]
              exact ⟨by omega, le_rfl, by omega⟩
          · refine ⟨?_, ?_⟩
            · intro _
              show (input_insert s.comment_input s.cursor_pos c).2 ≤
                (input_insert s.comment_input s.cursor_pos c).1.length
              have hi := input_insert_len s.comment_input s.cursor_pos c
              rw [hi.1, hi.2]
              omega
            · intro m2 hm2
              exact Option.noConfusion (hm.symm.trans hm2)
        all_goals exact ⟨hcur, hmen⟩
  · intro s m hInv hm
    obtain ⟨h1, h2, h3⟩ := hInv.2 m hm
    exact ⟨h1, by omega, by omega, by omega, h3⟩

/-- **C10, witness.** The invariant holds in a concrete freshly opened
editing session, is preserved by typing `'@'` (which activates the
overlay with `trigger_pos 1`), and the no-panic bounds follow. -/
theorem c10_witness :
    EditorInv (comment_edit_step (start_adding_comment
      ⟨[], 0, none, [], [], false⟩) (Key.char '@') none true) :=
  c10_trigger_pos_invariant.2.2.1 _ (Key.char '@') none true
    (c10_trigger_pos_invariant.1 ⟨[], 0, none, [], [], false⟩)

end MindfulJira
